import Mathlib

/-!
Verification of the SimpleApply rendering core against its specification.

The Lean definitions below are shallow embeddings of the Python sources:

* `src/date_translator.py`   — `translate_date`, `translate_date_range`
* `src/job_title_parser.py`  — `extract_gender_form` and helpers
* `src/skills_matcher.py`    — the post-parse fallback/truncation logic of
  `parse_skills_response`
* `src/template_processor.py` — `replace_placeholders`,
  `_get_value_contributions_for_cover_letter`, `TemplateProcessor.__init__`
* `src/translation_loader.py` — `validate_structure`,
  `create_translation_loader`

Python strings are modelled as `List Char` (code points, so `len` matches
`List.length`).  Python regular-expression behaviour (`re.sub`, `re.search`,
`re.IGNORECASE`, replacement-template expansion) is embedded by executable
functions that follow the leftmost, greedy-with-backtracking semantics of the
concrete patterns appearing in the sources.  Case folding for `re.IGNORECASE`
is modelled on the ASCII range.
-/

namespace SimpleApply

/-! ## Character utilities -/

/-- Whitespace test matching Python's `\s` / `str.strip` on the ASCII range:
space, tab, newline, carriage return, vertical tab, form feed. -/
def isWsChar (c : Char) : Bool :=
  c = ' ' || c = '\t' || c = '\n' || c = '\r' || c = Char.ofNat 11 || c = Char.ofNat 12

/-- The 26 ASCII upper/lower case pairs. -/
def upperLower : List (Char × Char) :=
  [('A', 'a'), ('B', 'b'), ('C', 'c'), ('D', 'd'), ('E', 'e'), ('F', 'f'),
   ('G', 'g'), ('H', 'h'), ('I', 'i'), ('J', 'j'), ('K', 'k'), ('L', 'l'),
   ('M', 'm'), ('N', 'n'), ('O', 'o'), ('P', 'p'), ('Q', 'q'), ('R', 'r'),
   ('S', 's'), ('T', 't'), ('U', 'u'), ('V', 'v'), ('W', 'w'), ('X', 'x'),
   ('Y', 'y'), ('Z', 'z')]

/-- ASCII lower-casing, the model of case folding used by `re.IGNORECASE`
and `str.lower()` for the placeholder keys and suffix tables occurring in
the sources. -/
def lowerChar (c : Char) : Char :=
  ((upperLower.find? (fun p => p.1 = c)).map Prod.snd).getD c

/-- Case-insensitive character comparison. -/
def cfEq (a b : Char) : Bool := lowerChar a = lowerChar b

/-- Case-folded image of a string. -/
def cfList (s : List Char) : List Char := s.map lowerChar

/-- Does `p` start the string `s`, character for character? -/
def startsLit : List Char → List Char → Bool
  | [], _ => true
  | _ :: _, [] => false
  | a :: as, b :: bs => a = b && startsLit as bs

/-- Does `p` start the string `s` up to ASCII case? -/
def startsCI : List Char → List Char → Bool
  | [], _ => true
  | _ :: _, [] => false
  | a :: as, b :: bs => cfEq a b && startsCI as bs

/-- Length of the maximal whitespace run starting the string (the longest
text a greedy `\s*` can consume at this position). -/
def wsRun : List Char → Nat
  | [] => 0
  | c :: t => if isWsChar c then wsRun t + 1 else 0

/-- Substring test, the semantics of Python's `in` on two strings. -/
def containsSub (n : List Char) : List Char → Bool
  | [] => startsLit n []
  | c :: t => startsLit n (c :: t) || containsSub n t

/-- Remove leading whitespace (half of Python's `str.strip()`). -/
def lstripList (s : List Char) : List Char := s.dropWhile isWsChar

/-- Remove trailing whitespace (Python's `str.rstrip()`). -/
def rstripList (s : List Char) : List Char :=
  (s.reverse.dropWhile isWsChar).reverse

/-- Remove whitespace from both ends (Python's `str.strip()`). -/
def stripList (s : List Char) : List Char := rstripList (lstripList s)

/-- Index of the last occurrence of a space character, `none` when there is
no space: the model of Python's `str.rfind(" ")` (which returns `-1` when
absent). -/
def rfindSpaceAux : List Char → Nat → Option Nat
  | [], _ => none
  | c :: t, i =>
    match rfindSpaceAux t (i + 1) with
    | some j => some j
    | none => if c = ' ' then some i else none

/-- Last index of `' '` in the string, if any. -/
def rfindSpace (s : List Char) : Option Nat := rfindSpaceAux s 0

/-- Decimal digit test (`0`–`9`). -/
def isDigitChar (c : Char) : Bool := '0' ≤ c && c ≤ '9'

/-- Digit in `1`–`9`. -/
def isDigit19 (c : Char) : Bool := '1' ≤ c && c ≤ '9'

/-- Numeric value of a decimal digit character. -/
def digitVal (c : Char) : Nat := c.toNat - '0'.toNat

/-! ## `src/date_translator.py` -/

/-- `MONTH_TRANSLATIONS["en"]`. -/
def monthsEn : List String :=
  ["January", "February", "March", "April", "May", "June",
   "July", "August", "September", "October", "November", "December"]

/-- `MONTH_TRANSLATIONS["fr"]`. -/
def monthsFr : List String :=
  ["Janvier", "Février", "Mars", "Avril", "Mai", "Juin",
   "Juillet", "Août", "Septembre", "Octobre", "Novembre", "Décembre"]

/-- `MONTH_TRANSLATIONS["es"]`. -/
def monthsEs : List String :=
  ["Enero", "Febrero", "Marzo", "Abril", "Mayo", "Junio",
   "Julio", "Agosto", "Septiembre", "Octubre", "Noviembre", "Diciembre"]

/-- Lookup in `MONTH_TRANSLATIONS` by language code; defined exactly for the
three keys of the dictionary. -/
def monthTable (language : String) : List String :=
  if language = "en" then monthsEn
  else if language = "fr" then monthsFr
  else monthsEs

/-- Language codes present in `MONTH_TRANSLATIONS`. -/
def supportedDateLangs : List String := ["en", "fr", "es"]

/-- Leap-year rule used by `datetime` (proleptic Gregorian calendar). -/
def isLeap (y : Nat) : Bool := y % 4 = 0 && (y % 100 ≠ 0 || y % 400 = 0)

/-- Number of days of a month, as enforced by the `datetime` constructor. -/
def daysInMonth (y m : Nat) : Nat :=
  if m = 2 then (if isLeap y then 29 else 28)
  else if m = 4 || m = 6 || m = 9 || m = 11 then 30
  else 31

/-- Day token of `_strptime`'s `%d`: the regex `3[01]|[12]\d|0[1-9]|[1-9]`,
alternatives tried in order, returning the day value and the rest of the
input. -/
def parseDayTok : List Char → Option (Nat × List Char)
  | [] => none
  | [c] => if isDigit19 c then some (digitVal c, []) else none
  | c :: d :: t =>
    if c = '3' && (d = '0' || d = '1') then some (30 + digitVal d, t)
    else if (c = '1' || c = '2') && isDigitChar d then
      some (10 * digitVal c + digitVal d, t)
    else if c = '0' && isDigit19 d then some (digitVal d, t)
    else if isDigit19 c then some (digitVal c, d :: t)
    else none

/-- Month token of `_strptime`'s `%m` (regex `1[0-2]|0[1-9]|[1-9]`) with full
regex backtracking into the continuation `k`: an alternative is kept only if
the rest of the pattern succeeds after it. -/
def parseMonthCont (s : List Char) (k : Nat → List Char → Option (Nat × Nat × Nat)) :
    Option (Nat × Nat × Nat) :=
  (match s with
   | '1' :: d :: t =>
     if d = '0' || d = '1' || d = '2' then k (10 + digitVal d) t else none
   | _ => none).orElse fun _ =>
  (match s with
   | '0' :: d :: t => if isDigit19 d then k (digitVal d) t else none
   | _ => none).orElse fun _ =>
  (match s with
   | c :: t => if isDigit19 c then k (digitVal c) t else none
   | [] => none)

/-- After the month: a literal `-`, the day token, end of input, and the
range checks performed by the `datetime` constructor
(`MINYEAR ≤ year`, `day ≤ daysInMonth`). -/
def parseDashDayEnd (y m : Nat) : List Char → Option (Nat × Nat × Nat)
  | '-' :: r =>
    match parseDayTok r with
    | some (d, []) =>
      if 1 ≤ y && d ≤ daysInMonth y m then some (y, m, d) else none
    | _ => none
  | _ => none

/-- Model of `datetime.strptime(iso_date, "%Y-%m-%d")`: four digits for `%Y`,
a dash, the `%m` token, a dash, the `%d` token, nothing left over, and the
`datetime` constructor's validity checks.  Returns `none` exactly when the
Python call raises `ValueError`. -/
def parseIsoDate : List Char → Option (Nat × Nat × Nat)
  | y1 :: y2 :: y3 :: y4 :: '-' :: rest =>
    if isDigitChar y1 && isDigitChar y2 && isDigitChar y3 && isDigitChar y4 then
      parseMonthCont rest
        (fun m r =>
          parseDashDayEnd
            (1000 * digitVal y1 + 100 * digitVal y2 + 10 * digitVal y3 + digitVal y4)
            m r)
    else none
  | _ => none

/-- Month name for a parsed month number: `months[date_obj.month - 1]`.
`parseIsoDate` only produces `1 ≤ m ≤ 12`, so the default is never used
(the Python code would raise `IndexError`, which its `except` clause also
maps to returning the input). -/
def monthName (language : String) (m : Nat) : String :=
  (monthTable language).getD (m - 1) ""

/-- `translate_date(iso_date, language, include_day)` from
`src/date_translator.py`.  On parse failure the original input is returned
unchanged; an unsupported language code is first replaced by `"en"`.  The
final `else` branch mirrors the `language == "es"` arm; after normalisation
the language is always one of `en`, `fr`, `es`, so no further arm is
reachable (Python would fall off the `if`/`elif` chain there). -/
def translate_date (iso_date : String) (language : String) (include_day : Bool) : String :=
  match parseIsoDate iso_date.data with
  | none => iso_date
  | some (y, m, d) =>
    let lang := if supportedDateLangs.contains language then language else "en"
    let mn := monthName lang m
    if include_day then
      if lang = "en" then mn ++ " " ++ toString d ++ ", " ++ toString y
      else if lang = "fr" then toString d ++ " " ++ mn ++ " " ++ toString y
      else toString d ++ " de " ++ mn ++ " de " ++ toString y
    else mn ++ " " ++ toString y

/-- `translate_date_range(start_date, end_date, language)` from
`src/date_translator.py`. -/
def translate_date_range (start_date end_date : String) (language : String) : String :=
  translate_date start_date language false ++ " – " ++ translate_date end_date language false

/-! ## `src/job_title_parser.py`

The three `re.search` patterns of `_extract_feminine_form` are anchored with
`^`, so only a match at position 0 is possible.  The character classes
`[^()]+`, `[^)]+`, `[^/]+`, `[^·]+` force each first group to stop at the
first relevant marker, so no backtracking ambiguity remains.  `.`/`.+`/`.*`
do not match a newline and `$` also matches just before a single final
newline; `restGroup` reproduces that corner. -/

/-- The text matched by a trailing `(.*)$` or `(.+)$` group against the
remainder `s`: all of `s` when it is newline-free, `s` without its final
character when that character is the only newline, otherwise no match. -/
def restGroup (s : List Char) : Option (List Char) :=
  if s.contains '\n' then
    if s.getLast? = some '\n' && !s.dropLast.contains '\n' then some s.dropLast
    else none
  else some s

/-- Index of the first occurrence of a character satisfying `p`. -/
def firstIdxP (p : Char → Bool) : List Char → Option Nat
  | [] => none
  | c :: t =>
    if p c then some 0
    else match firstIdxP p t with
      | some i => some (i + 1)
      | none => none

/-- Match of `re.search(r'^([^()]+)\(([^)]+)\)(.*)$', s)`: groups
`(base, paren content, suffix)`. -/
def parenMatch (s : List Char) : Option (List Char × List Char × List Char) :=
  match firstIdxP (fun c => c = '(' || c = ')') s with
  | none => none
  | some i =>
    if i = 0 then none
    else if s.getD i ' ' = '(' then
      let afterOpen := s.drop (i + 1)
      match firstIdxP (fun c => c = ')') afterOpen with
      | none => none
      | some j =>
        if j = 0 then none
        else
          match restGroup (afterOpen.drop (j + 1)) with
          | some suf => some (s.take i, afterOpen.take j, suf)
          | none => none
    else none

/-- Match of `re.search(r'^([^/]+)/(.+)$', s)`: groups `(base, feminine)`. -/
def slashMatch (s : List Char) : Option (List Char × List Char) :=
  match firstIdxP (fun c => c = '/') s with
  | none => none
  | some i =>
    if i = 0 then none
    else
      match restGroup (s.drop (i + 1)) with
      | some fem => if fem.isEmpty then none else some (s.take i, fem)
      | none => none

/-- Match of `re.search(r'^([^·]+)·(.+)$', s)`: groups `(base, feminine)`. -/
def dotMatch (s : List Char) : Option (List Char × List Char) :=
  match firstIdxP (fun c => c = '·') s with
  | none => none
  | some i =>
    if i = 0 then none
    else
      match restGroup (s.drop (i + 1)) with
      | some fem => if fem.isEmpty then none else some (s.take i, fem)
      | none => none

/-- The suffix list of the parenthetical branch:
`['se', 'e', 'a', 'euse', 'eure']`. -/
def parenSuffixes : List (List Char) :=
  ["se".data, "e".data, "a".data, "euse".data, "eure".data]

/-- The suffix list of the slash branch: `['euse', 'se', 'e', 'a']`. -/
def slashSuffixes : List (List Char) :=
  ["euse".data, "se".data, "e".data, "a".data]

/-- `_extract_feminine_form(job_title)` from `src/job_title_parser.py`,
branch for a parenthetical match. -/
def feminineFromParen (b pc suf0 : List Char) : List Char :=
  let base := stripList b
  let paren := stripList pc
  let suffix := stripList suf0
  let parenLower := cfList paren
  if paren.length ≤ 3 && parenSuffixes.contains parenLower then
    if parenLower = "se".data || parenLower = "euse".data then
      if base.getLast? = some 'r' && parenLower = "se".data then base.dropLast ++ paren
      else if base.getLast? = some 'r' && parenLower = "euse".data then base.dropLast ++ paren
      else base ++ paren ++ suffix
    else base ++ paren ++ suffix
  else paren ++ suffix

/-- `_extract_feminine_form(job_title)` from `src/job_title_parser.py`,
branch for a slash match. -/
def feminineFromSlash (b f : List Char) : List Char :=
  let base := stripList b
  let feminine := stripList f
  let femLower := cfList feminine
  if slashSuffixes.contains femLower then
    if base.getLast? = some 'r' && femLower = "euse".data then base.dropLast ++ feminine
    else if base.getLast? = some 'r' && femLower = "se".data then base.dropLast ++ feminine
    else base ++ feminine
  else feminine

/-- `_extract_feminine_form(job_title)` from `src/job_title_parser.py`. -/
def extract_feminine_form (job_title : String) : String :=
  match parenMatch job_title.data with
  | some (b, pc, suf) => ⟨feminineFromParen b pc suf⟩
  | none =>
    match slashMatch job_title.data with
    | some (b, f) => ⟨feminineFromSlash b f⟩
    | none =>
      match dotMatch job_title.data with
      | some (_, f) => ⟨stripList f⟩
      | none => job_title

/-- `re.sub(r'\([^)]*\)', '', s)`: delete every parenthesised group, scanning
left to right (`[^)]*` is greedy up to the next `)`; without a closing `)`
there is no match). -/
def dropParenGroups : List Char → List Char
  | [] => []
  | c :: t =>
    if c = '(' then
      match firstIdxP (fun d => d = ')') t with
      | some j => dropParenGroups (t.drop (j + 1))
      | none => c :: dropParenGroups t
    else c :: dropParenGroups t
termination_by s => s.length
decreasing_by
  · simp only [List.length_drop, List.length_cons]; omega
  · simp
  · simp

/-- First segment of a split: `s.split(sep)[0]`. -/
def beforeChar (sep : Char) (s : List Char) : List Char :=
  s.takeWhile (fun c => c ≠ sep)

/-- `_extract_base_form(job_title)` from `src/job_title_parser.py`. -/
def extract_base_form (job_title : String) : String :=
  let r1 := stripList (dropParenGroups job_title.data)
  let r2 := stripList (beforeChar '/' r1)
  let r3 := stripList (beforeChar '·' r2)
  ⟨r3⟩

/-- `extract_gender_form(job_title, gender)` from `src/job_title_parser.py`. -/
def extract_gender_form (job_title : String) (gender : String) : String :=
  let g : List Char := cfList gender.data
  if g = "male".data then extract_base_form job_title
  else if g = "female".data then extract_feminine_form job_title
  else job_title

/-! ## `src/skills_matcher.py` — fallback and truncation logic of
`parse_skills_response` -/

/-- The five list fields of the decoded JSON object, after the
required-field check and the `isinstance(…, list)` normalisation of
`parse_skills_response` (a missing field raises, a non-list field becomes
`[]`). -/
structure SkillsData where
  user_skills : List String
  job_skills : List String
  matched_skills : List String
  relevant_technologies : List String
  key_value_contributions : List String
deriving Repr, DecidableEq

/-- The three hardcoded default statements installed by
`parse_skills_response` when `key_value_contributions` is empty. -/
def defaultContributions : List String :=
  ["My software development and data science expertise enables me to deliver innovative technical solutions that drive measurable business impact.",
   "I bring a proven track record of collaborating with cross-functional teams to implement scalable systems and solve complex technical challenges.",
   "My experience spans full-stack development, cloud architecture, and AI integration, enabling me to contribute effectively across multiple technical domains."]

/-- The 350-character truncation of `parse_skills_response`: strings longer
than 350 characters are cut to the first 350, shortened to the last space
when one occurs at a positive index, right-stripped, and a period is
appended. -/
def truncateContrib (s : String) : String :=
  if s.data.length > 350 then
    let t := s.data.take 350
    let t2 :=
      match rfindSpace t with
      | some i => if 0 < i then t.take i else t
      | none => t
    ⟨rstripList t2 ++ ['.']⟩
  else s

/-- The `relevant_technologies` fallback of `parse_skills_response`, lines
193–205: when the primary list is empty, fall back to `matched_skills`
(extended with `job_skills` when below 10 entries) capped at 20; when
`matched_skills` is also empty, use `job_skills` capped at 20.  The literal
`["Technology"]` default of `skills_data.get("job_skills", ["Technology"])`
can never be taken: the required-field check already guaranteed the key is
present. -/
def fixRelevantTechnologies (d : SkillsData) : List String :=
  if d.relevant_technologies.isEmpty then
    if d.matched_skills.isEmpty then d.job_skills.take 20
    else
      let fallback :=
        if d.matched_skills.length < 10 then d.matched_skills ++ d.job_skills
        else d.matched_skills
      fallback.take 20
  else d.relevant_technologies

/-- The `key_value_contributions` fallback of `parse_skills_response`, lines
207–214: the three hardcoded defaults exactly when the list is empty. -/
def fixContributions (d : SkillsData) : List String :=
  if d.key_value_contributions.isEmpty then defaultContributions
  else d.key_value_contributions

/-- The transformation applied by `parse_skills_response` after JSON
decoding and field normalisation (lines 193–230): technology fallback,
contributions fallback, then per-item 350-character truncation. -/
def parseSkillsFix (d : SkillsData) : SkillsData :=
  { d with
    relevant_technologies := fixRelevantTechnologies d
    key_value_contributions := (fixContributions d).map truncateContrib }

/-! ## `src/template_processor.py` — cover-letter value contributions -/

/-- The fallback statements hardcoded in
`TemplateProcessor._get_value_contributions_for_cover_letter`. -/
def coverLetterFallbacks : List String :=
  ["My background in software development and data science positions me to deliver innovative technical solutions that drive measurable business impact.",
   "I bring a proven track record of collaborating with cross-functional teams to implement scalable software systems and solve complex technical challenges.",
   "My experience spans full-stack development, cloud architecture, and AI integration, enabling me to contribute effectively across multiple technical domains."]

/-- `TemplateProcessor._get_value_contributions_for_cover_letter`: the first
three of `key_value_contributions`, with positions `i ≥ len` filled from
`coverLetterFallbacks[i]`. -/
def getValueContributionsForCoverLetter (key_value_contributions : List String) :
    List String :=
  let top := key_value_contributions.take 3
  (List.range 3).map fun i =>
    if i < top.length then top.getD i "" else coverLetterFallbacks.getD i ""

/-! ## `src/translation_loader.py`

The JSON value loaded from `translations.json` is modelled by `TransVal`
(a JSON string or object; the other JSON forms do not occur in the resource
and are not inspected by the code under verification).  The top-level
document is a language map; Python `dict` keys are unique, so a `TransDict`
is the list of its entries iterated in insertion order.  File-system access
cannot be embedded: `_load_translations` is abstracted by an
`Except String TransDict` argument which is `error` exactly when the Python
method raises `TranslationError` (file missing, unreadable, or invalid
JSON). -/

/-- A JSON value as it occurs in the translation resource. -/
inductive TransVal where
  | str (v : String)
  | obj (fields : List (String × TransVal))
deriving Repr

/-- The top-level language map of the translation resource. -/
abbrev TransDict := List (String × TransVal)

/-- Python's `key in value` for a JSON value: key membership for an object,
substring containment for a string. -/
def hasKeyB (k : String) : TransVal → Bool
  | .obj fs => fs.any (fun p => p.1 = k)
  | .str v => containsSub k.data v.data

/-- Python's `value[key]` for a JSON value: association lookup for an
object; indexing a `str` with a `str` raises `TypeError`, which
`validate_structure` converts into the `"Invalid translation structure"`
error. -/
def getKeyE (k : String) : TransVal → Except String TransVal
  | .obj fs =>
    match fs.find? (fun p => p.1 = k) with
    | some p => .ok p.2
    | none => .error ("Invalid translation structure: " ++ k)
  | .str _ => .error "Invalid translation structure: str indices must be integers"

/-- `required_sections` of `validate_structure`. -/
def requiredSections : List String := ["cv", "cover_letter"]

/-- `required_cv_keys` of `validate_structure`. -/
def requiredCvKeys : List String :=
  ["summary_header", "education_header", "projects_header",
   "experience_header", "skills_header"]

/-- `required_cl_keys` of `validate_structure`. -/
def requiredClKeys : List String :=
  ["greeting", "intro_paragraph", "experience_paragraph",
   "key_areas_header", "closing_paragraph_1", "closing_paragraph_2",
   "sign_off"]

/-- The section loop of `validate_structure`: raise on the first required
section absent from `lang_data`. -/
def checkSections (lang : String) (ld : TransVal) : List String → Except String Unit
  | [] => .ok ()
  | sec :: rest =>
    if hasKeyB sec ld then checkSections lang ld rest
    else .error ("Missing section '" ++ sec ++ "' in language '" ++ lang ++ "'")

/-- A key loop of `validate_structure`: raise on the first required key
absent from the section value. -/
def checkKeys (msg : String) (lang : String) (sectionVal : TransVal) :
    List String → Except String Unit
  | [] => .ok ()
  | k :: rest =>
    if hasKeyB k sectionVal then checkKeys msg lang sectionVal rest
    else .error ("Missing " ++ msg ++ " key '" ++ k ++ "' in language '" ++ lang ++ "'")

/-- The body of `validate_structure`'s outer loop for one language. -/
def validateLang (lang : String) (ld : TransVal) : Except String Unit := do
  checkSections lang ld requiredSections
  let cvVal ← getKeyE "cv" ld
  checkKeys "CV" lang cvVal requiredCvKeys
  let clVal ← getKeyE "cover_letter" ld
  checkKeys "cover letter" lang clVal requiredClKeys

/-- `for language in self.supported_languages` — `supported_languages` is
`list(self.translations.keys())`, so the loop visits exactly the top-level
entries in order. -/
def validateAll : TransDict → Except String Unit
  | [] => .ok ()
  | (lang, ld) :: rest => do
    validateLang lang ld
    validateAll rest

/-- `TranslationLoader.validate_structure` from `src/translation_loader.py`:
walks every locale present in the loaded dictionary and raises
`TranslationError` on the first missing required section or key; returns
`True` otherwise. -/
def validate_structure (translations : TransDict) : Except String Bool := do
  validateAll translations
  pure true

/-- `TranslationLoader` state after `__init__`: the loaded dictionary and
`supported_languages = list(self.translations.keys())`. -/
structure TranslationLoader where
  translations : TransDict
  supported_languages : List String

/-- `TranslationLoader.__init__`, with `_load_translations` abstracted by
`loadResult` (error exactly when the file is missing, unreadable or not
valid JSON). -/
def TranslationLoader.init (loadResult : Except String TransDict) :
    Except String TranslationLoader := do
  let t ← loadResult
  pure ⟨t, t.map Prod.fst⟩

/-- `create_translation_loader` from `src/translation_loader.py`: construct
the loader, then `validate_structure`; any `TranslationError` propagates to
the caller. -/
def create_translation_loader (loadResult : Except String TransDict) :
    Except String TranslationLoader := do
  let loader ← TranslationLoader.init loadResult
  let _ ← validate_structure loader.translations
  pure loader

/-- `TemplateProcessor` construction state: only the translation loader
matters to the claims; template names are carried for fidelity. -/
structure TemplateProcessor where
  cv_template_name : String
  cover_letter_template_name : String
  translation_loader : Option TranslationLoader

/-- `TemplateProcessor.__init__` from `src/template_processor.py`, lines
27–35: `create_translation_loader` is attempted and any `TranslationError`
is caught, logged, and replaced by `None` — construction itself never
propagates the error. -/
def TemplateProcessor.init (loadResult : Except String TransDict) : TemplateProcessor :=
  { cv_template_name := "cv_template.html"
    cover_letter_template_name := "cover_letter_template.html"
    translation_loader :=
      match create_translation_loader loadResult with
      | .ok loader => some loader
      | .error _ => none }

/-! ## `src/template_processor.py` — `replace_placeholders`

For each key the code builds three patterns over the regex-escaped key:
`<!--\s*KEY\s*-->`, `\{\s*KEY\s*\}` and `\[\s*KEY\s*\]`, each applied with
`re.sub(..., flags=re.IGNORECASE)`.  `re.sub` finds leftmost matches,
scanning past each replacement; within a match the two greedy `\s*` groups
backtrack from the longest whitespace run downwards.  The matcher below
implements exactly that search order. -/

/-- The three placeholder pattern forms. -/
inductive PForm where
  | comment
  | brace
  | bracket
deriving DecidableEq, Repr

/-- Opening literal of a pattern form (`<!--`, `{`, `[`). -/
def opnOf : PForm → List Char
  | .comment => ['<', '!', '-', '-']
  | .brace => ['\x7b']
  | .bracket => ['[']

/-- Closing literal of a pattern form (`-->`, `}`, `]`). -/
def clsOf : PForm → List Char
  | .comment => ['-', '-', '>']
  | .brace => ['\x7d']
  | .bracket => [']']

/-- Backtracking for the trailing `\s*` followed by the closing literal:
try consuming `j` whitespace characters, greedily from the largest `j`
down.  Returns the number of characters consumed from `t` on success. -/
def tryClose (cls t : List Char) : Nat → Option Nat
  | 0 => if startsLit cls t then some cls.length else none
  | j + 1 =>
    if startsLit cls (t.drop (j + 1)) then some (j + 1 + cls.length)
    else tryClose cls t j

/-- One attempt of the leading `\s*`: consume exactly `k` whitespace
characters, then the case-insensitive key, then the trailing `\s*` and the
closing literal. -/
def keyAttempt (key cls t : List Char) (k : Nat) : Option Nat :=
  if startsCI key (t.drop k) then
    match tryClose cls (t.drop (k + key.length)) (wsRun (t.drop (k + key.length))) with
    | some n => some (k + key.length + n)
    | none => none
  else none

/-- Backtracking for the leading `\s*`, greedily from `k` whitespace
characters down to none. -/
def tryKey (key cls t : List Char) : Nat → Option Nat
  | 0 => keyAttempt key cls t 0
  | k + 1 =>
    match keyAttempt key cls t (k + 1) with
    | some n => some n
    | none => tryKey key cls t k

/-- Match of the whole pattern `opn\s*key\s*cls` (key case-insensitive) at
the start of `s`, returning the matched length. -/
def matchAt (opn key cls : List Char) (s : List Char) : Option Nat :=
  if startsLit opn s then
    match tryKey key cls (s.drop opn.length) (wsRun (s.drop opn.length)) with
    | some n => some (opn.length + n)
    | none => none
  else none

/-- Match of the pattern of form `f` for `key` at the start of `s`. -/
def formMatch (f : PForm) (key : List Char) (s : List Char) : Option Nat :=
  matchAt (opnOf f) key (clsOf f) s

theorem formMatch_some_pos {f : PForm} {key s : List Char} {n : Nat}
    (h : formMatch f key s = some n) : 1 ≤ n := by
  unfold formMatch matchAt at h
  by_cases hs : startsLit (opnOf f) s = true
  · simp only [hs, if_true] at h
    cases htk : tryKey key (clsOf f) (s.drop (opnOf f).length)
        (wsRun (s.drop (opnOf f).length)) with
    | none => simp [htk] at h
    | some m =>
      simp only [htk] at h
      cases h
      cases f <;> simp [opnOf] <;> omega
  · simp [hs] at h

/-- The scan of `re.sub`: at each position, replace a match and continue
after it, otherwise emit one character and move on.  Each step consumes at
least one character, so running the scan with the input's length as
structural fuel computes the whole scan (`scanSubAux_congr` below); the
fuel-free interface is `scanSub`. -/
def scanSubAux (f : PForm) (key v : List Char) : Nat → List Char → List Char
  | _, [] => []
  | 0, s => s
  | fuel + 1, c :: t =>
    match formMatch f key (c :: t) with
    | some n => v ++ scanSubAux f key v fuel ((c :: t).drop n)
    | none => c :: scanSubAux f key v fuel t

/-- `re.sub` of one placeholder pattern over a whole string. -/
def scanSub (f : PForm) (key v : List Char) (s : List Char) : List Char :=
  scanSubAux f key v s.length s

theorem scanSubAux_congr (f : PForm) (key v : List Char) :
    ∀ (f1 : Nat), ∀ (f2 : Nat), ∀ s : List Char, s.length ≤ f1 → s.length ≤ f2 →
      scanSubAux f key v f1 s = scanSubAux f key v f2 s := by
  intro f1
  induction f1 with
  | zero =>
    intro f2 s h1 _
    have : s = [] := List.eq_nil_of_length_eq_zero (by omega)
    subst this
    cases f2 <;> rfl
  | succ f1 ih =>
    intro f2 s h1 h2
    cases s with
    | nil => cases f2 <;> rfl
    | cons c t =>
      cases f2 with
      | zero => simp at h2
      | succ g =>
        show scanSubAux f key v (f1 + 1) (c :: t) = scanSubAux f key v (g + 1) (c :: t)
        unfold scanSubAux
        cases hm : formMatch f key (c :: t) with
        | some n =>
          have hn := formMatch_some_pos hm
          have hlen : ((c :: t).drop n).length ≤ f1 := by
            simp only [List.length_drop, List.length_cons]
            simp only [List.length_cons] at h1
            omega
          have hlen2 : ((c :: t).drop n).length ≤ g := by
            simp only [List.length_drop, List.length_cons]
            simp only [List.length_cons] at h2
            omega
          dsimp only
          rw [ih g _ hlen hlen2]
        | none =>
          have hlen : t.length ≤ f1 := by simp only [List.length_cons] at h1; omega
          have hlen2 : t.length ≤ g := by simp only [List.length_cons] at h2; omega
          dsimp only
          rw [ih g _ hlen hlen2]

theorem scanSub_nil (f : PForm) (key v : List Char) : scanSub f key v [] = [] := rfl

theorem scanSub_cons_some {f : PForm} {key : List Char} (v : List Char)
    {c : Char} {t : List Char} {n : Nat} (h : formMatch f key (c :: t) = some n) :
    scanSub f key v (c :: t) = v ++ scanSub f key v ((c :: t).drop n) := by
  have hn := formMatch_some_pos h
  show scanSubAux f key v (t.length + 1) (c :: t) = _
  unfold scanSubAux
  rw [h]
  dsimp only
  unfold scanSub
  rw [scanSubAux_congr f key v t.length ((c :: t).drop n).length ((c :: t).drop n)
    (by simp only [List.length_drop, List.length_cons]; omega) (le_refl _)]

theorem scanSub_cons_none {f : PForm} {key : List Char} (v : List Char)
    {c : Char} {t : List Char} (h : formMatch f key (c :: t) = none) :
    scanSub f key v (c :: t) = c :: scanSub f key v t := by
  show scanSubAux f key v (t.length + 1) (c :: t) = _
  unfold scanSubAux
  rw [h]
  dsimp only
  rfl

/-- One iteration of the `replace_placeholders` loop: the comment, brace and
bracket patterns applied in order for a single key/value pair. -/
def substKeyOne (key v s : List Char) : List Char :=
  scanSub .bracket key v (scanSub .brace key v (scanSub .comment key v s))

/-- The whole loop of `replace_placeholders` with replacement-template
expansion already performed on the values. -/
def substAll (rs : List (List Char × List Char)) (t : List Char) : List Char :=
  rs.foldl (fun acc kv => substKeyOne kv.1 kv.2 acc) t

/-! Replacement-template expansion of `re.sub`.  A replacement string
containing a backslash is parsed by `re._parser.parse_template` before any
match is attempted: `\g…` needs a `<name>` referring to a group of the
pattern; `\0…` is an octal escape; `\1`–`\99` are group references; a known
letter escape (`\n`, `\t`, …) and `\\` produce one character; an unknown
ASCII letter escape and a trailing lone backslash are errors; any other
escaped character keeps both characters.  The three placeholder patterns
contain no groups, so every group reference is an error. -/

/-- Known single-character escapes of a replacement template
(`re._parser.ESCAPES`, restricted to those reachable from `parse_template`). -/
def escMap (c : Char) : Option Char :=
  if c = 'n' then some '\n'
  else if c = 't' then some '\t'
  else if c = 'r' then some '\r'
  else if c = 'v' then some (Char.ofNat 11)
  else if c = 'f' then some (Char.ofNat 12)
  else if c = 'a' then some (Char.ofNat 7)
  else if c = 'b' then some (Char.ofNat 8)
  else if c = '\\' then some '\\'
  else none

/-- Octal digit test. -/
def isOctChar (c : Char) : Bool := '0' ≤ c && c ≤ '7'

/-- ASCII letter test. -/
def isAsciiLetterChar (c : Char) : Bool :=
  ('a' ≤ c && c ≤ 'z') || ('A' ≤ c && c ≤ 'Z')

/-- An octal escape `\0`, `\0o` or `\0oo` of a replacement template: the
value (Python applies `& 0xff`, never needed for at most two further octal
digits after the leading `0`) and the unconsumed remainder. -/
def octTake : List Char → (Char × List Char)
  | [] => (Char.ofNat 0, [])
  | d1 :: r1 =>
    if isOctChar d1 then
      match r1 with
      | d2 :: r2 =>
        if isOctChar d2 then (Char.ofNat (8 * digitVal d1 + digitVal d2), r2)
        else (Char.ofNat (digitVal d1), d2 :: r2)
      | [] => (Char.ofNat (digitVal d1), [])
    else (Char.ofNat 0, d1 :: r1)

theorem octTake_len (s : List Char) : (octTake s).2.length ≤ s.length := by
  match s with
  | [] => simp [octTake]
  | d1 :: r1 =>
    unfold octTake
    by_cases h1 : isOctChar d1 = true
    · simp only [h1, if_true]
      match r1 with
      | [] => simp
      | d2 :: r2 =>
        by_cases h2 : isOctChar d2 = true <;> simp [h2] <;> omega
    · simp [h1]

/-- `re._parser.parse_template` for a pattern without groups: expansion of a
`re.sub` replacement string, raising `re.error` (modelled as `Except.error`)
exactly where Python does.  Each step consumes at least one character, so
the input's length is enough structural fuel (`expandReplAux_congr`). -/
def expandReplAux : Nat → List Char → Except String (List Char)
  | _, [] => .ok []
  | 0, s => .ok s
  | fuel + 1, c :: rest =>
    if c = '\\' then
      match rest with
      | [] => .error "bad escape (end of pattern)"
      | e :: rest2 =>
        if e = 'g' then .error "missing <, unknown group name, or bad character in group name"
        else if e = '0' then
          (expandReplAux fuel (octTake rest2).2).map ((octTake rest2).1 :: ·)
        else if isDigitChar e then .error "invalid group reference"
        else
          match escMap e with
          | some ch => (expandReplAux fuel rest2).map (ch :: ·)
          | none =>
            if isAsciiLetterChar e then .error "bad escape"
            else (expandReplAux fuel rest2).map (fun r => '\\' :: e :: r)
    else (expandReplAux fuel rest).map (c :: ·)

/-- Expansion of a `re.sub` replacement string. -/
def expandRepl (s : List Char) : Except String (List Char) :=
  expandReplAux s.length s

/-- `TemplateProcessor.replace_placeholders(template, replacements)` from
`src/template_processor.py`: for each key/value pair in order, the three
patterns are substituted; `re.sub` first expands the replacement value, so a
malformed value raises even without a match.  The `replacements` dict is the
association list of its items in insertion order. -/
def replace_placeholders (template : String) (replacements : List (String × String)) :
    Except String String := do
  let out ← replacements.foldlM
    (fun (acc : List Char) kv => do
      let ev ← expandRepl kv.2.data
      pure (substKeyOne kv.1.data ev acc))
    template.data
  pure ⟨out⟩

/-! ## Claims -/

/-- C5: the claim states `extractFeminine("Développeur·euse") == "Développeuse"`.
The interpunct branch of `_extract_feminine_form` (lines 143–146) returns the
stripped segment after the dot verbatim, so the call returns `"euse"`, not
the composed feminine word promised by the function's own docstring
(lines 95–96) and the module docstring (line 10).  This theorem evaluates
the embedded code at the failing input. -/
theorem C5_interpunct_feminine :
    extract_feminine_form "Développeur·euse" = "euse" ∧
    extract_feminine_form "Développeur·euse" ≠ "Développeuse" := by
  exact ⟨rfl, by decide⟩

/-- C8: for every string parsed by `strptime("%Y-%m-%d")` into `(y, m, d)`
and every supported locale, `translate_date` produces `"{Month} {Year}"`
without the day and the locale-specific ordering with the day, taking the
month name from the locale's 12-entry table at index `m - 1`; in particular
`translate_date("2023-05-30", "es", include_day=True)` is
`"30 de Mayo de 2023"`. -/
theorem C8_translate_date_formats :
    ∀ (s : String) (y m d : Nat), parseIsoDate s.data = some (y, m, d) →
    (translate_date s "en" false = monthName "en" m ++ " " ++ toString y)
    ∧ (translate_date s "fr" false = monthName "fr" m ++ " " ++ toString y)
    ∧ (translate_date s "es" false = monthName "es" m ++ " " ++ toString y)
    ∧ (translate_date s "en" true =
        monthName "en" m ++ " " ++ toString d ++ ", " ++ toString y)
    ∧ (translate_date s "fr" true =
        toString d ++ " " ++ monthName "fr" m ++ " " ++ toString y)
    ∧ (translate_date s "es" true =
        toString d ++ " de " ++ monthName "es" m ++ " de " ++ toString y)
    ∧ translate_date "2023-05-30" "es" true = "30 de Mayo de 2023" := by
  intro s y m d h
  refine ⟨?_, ?_, ?_, ?_, ?_, ?_, rfl⟩ <;>
    simp [translate_date, h, supportedDateLangs]

/-- C8 witness: the theorem applied at the concrete date `2023-05-30`. -/
theorem C8_translate_date_formats_witness :
    parseIsoDate "2023-05-30".data = some (2023, 5, 30) ∧
    translate_date "2023-05-30" "fr" true =
      toString 30 ++ " " ++ monthName "fr" 5 ++ " " ++ toString 2023 := by
  refine ⟨by decide, ?_⟩
  exact (C8_translate_date_formats "2023-05-30" 2023 5 30 (by decide)).2.2.2.2.1

/-- C9: a string that `strptime` rejects is returned unchanged for every
locale and day flag (the embedding is total, so no exception escapes), and
an unsupported locale behaves exactly like English for every input. -/
theorem C9_translate_date_degradation :
    (∀ (s : String) (language : String) (include_day : Bool),
      parseIsoDate s.data = none → translate_date s language include_day = s)
    ∧ (∀ (s : String) (language : String) (include_day : Bool),
      supportedDateLangs.contains language = false →
      translate_date s language include_day = translate_date s "en" include_day) := by
  constructor
  · intro s language include_day h
    simp [translate_date, h]
  · intro s language include_day h
    cases hp : parseIsoDate s.data with
    | none => simp [translate_date, hp]
    | some v =>
      have hn : (if supportedDateLangs.contains language = true then language else "en") =
          "en" := by rw [h]; simp
      simp only [translate_date, hp, hn]
      simp [supportedDateLangs]

/-- C9 witness: the theorem applied at an unparsable input and at an
unsupported locale. -/
theorem C9_translate_date_degradation_witness :
    parseIsoDate "13/05/2023".data = none ∧
    translate_date "13/05/2023" "de" true = "13/05/2023" ∧
    supportedDateLangs.contains "de" = false ∧
    translate_date "2023-05-30" "de" true = translate_date "2023-05-30" "en" true := by
  refine ⟨by decide, ?_, by decide, ?_⟩
  · exact C9_translate_date_degradation.1 "13/05/2023" "de" true (by decide)
  · exact C9_translate_date_degradation.2 "2023-05-30" "de" true (by decide)

/-! ### Helper lemmas about `rstripList` and `rfindSpace` -/

theorem data_mk (l : List Char) : (String.mk l).data = l := rfl

theorem getD_take_of_lt (l : List Char) (d : Char) {i n : Nat} (h : i < n) :
    (l.take n).getD i d = l.getD i d := by
  unfold List.getD
  rw [List.get?_eq_getElem?, List.get?_eq_getElem?, List.getElem?_take_of_lt h]

theorem rstripList_length_le (s : List Char) : (rstripList s).length ≤ s.length := by
  unfold rstripList
  calc ((s.reverse.dropWhile isWsChar).reverse).length
      = (s.reverse.dropWhile isWsChar).length := List.length_reverse _
    _ ≤ s.reverse.length := (List.dropWhile_sublist isWsChar).length_le
    _ = s.length := List.length_reverse _

theorem rstripList_eq_self {s : List Char} (h : ∀ c ∈ s, isWsChar c = false) :
    rstripList s = s := by
  unfold rstripList
  cases hr : s.reverse with
  | nil =>
    have : s = [] := by simpa using congrArg List.reverse hr
    simp [this]
  | cons c t =>
    have hc : c ∈ s := by
      have : c ∈ s.reverse := by rw [hr]; exact List.mem_cons_self _ _
      simpa using this
    rw [List.dropWhile_cons, h c hc]
    simp only [Bool.false_eq_true, if_false]
    rw [← hr, List.reverse_reverse]

theorem rfindSpaceAux_ge :
    ∀ (s : List Char) (b j : Nat), rfindSpaceAux s b = some j → b ≤ j := by
  intro s
  induction s with
  | nil => intro b j h; simp [rfindSpaceAux] at h
  | cons c t ih =>
    intro b j h
    unfold rfindSpaceAux at h
    cases ht : rfindSpaceAux t (b + 1) with
    | some j2 =>
      simp only [ht, Option.some.injEq] at h
      subst h
      have := ih (b + 1) j2 ht
      omega
    | none =>
      simp only [ht] at h
      by_cases hc : c = ' '
      · simp [hc] at h; omega
      · simp [hc] at h

theorem rfindSpaceAux_spec :
    ∀ (s : List Char) (b j : Nat), rfindSpaceAux s b = some j →
      j - b < s.length ∧ s.getD (j - b) 'x' = ' ' := by
  intro s
  induction s with
  | nil => intro b j h; simp [rfindSpaceAux] at h
  | cons c t ih =>
    intro b j h
    unfold rfindSpaceAux at h
    cases ht : rfindSpaceAux t (b + 1) with
    | some j2 =>
      simp only [ht, Option.some.injEq] at h
      have hge := rfindSpaceAux_ge t (b + 1) j2 ht
      have hspec := ih (b + 1) j2 ht
      have hidx : j - b = (j2 - (b + 1)) + 1 := by omega
      rw [hidx]
      constructor
      · simp only [List.length_cons]; omega
      · simpa using hspec.2
    | none =>
      simp only [ht] at h
      by_cases hc : c = ' '
      · simp only [hc, if_pos] at h
        simp only [Option.some.injEq] at h
        have hz : j - b = 0 := by omega
        rw [hz]
        simp [hc]
      · simp [hc] at h

theorem rfindSpaceAux_exists :
    ∀ (s : List Char) (b i : Nat), i < s.length → s.getD i 'x' = ' ' →
      ∃ j, rfindSpaceAux s b = some j ∧ b + i ≤ j := by
  intro s
  induction s with
  | nil => intro b i hi _; simp at hi
  | cons c t ih =>
    intro b i hi hg
    cases i with
    | zero =>
      cases ht : rfindSpaceAux t (b + 1) with
      | some j2 =>
        refine ⟨j2, ?_, ?_⟩
        · unfold rfindSpaceAux; simp only [ht]
        · have := rfindSpaceAux_ge t (b + 1) j2 ht; omega
      | none =>
        refine ⟨b, ?_, by omega⟩
        unfold rfindSpaceAux
        simp only [ht]
        simp only [List.getD_cons_zero] at hg
        simp [hg]
    | succ i2 =>
      simp only [List.getD_cons_succ] at hg
      simp only [List.length_cons, Nat.succ_lt_succ_iff] at hi
      obtain ⟨j, ht, hj⟩ := ih (b + 1) i2 hi hg
      refine ⟨j, ?_, by omega⟩
      unfold rfindSpaceAux
      simp only [ht]

theorem rfindSpaceAux_none :
    ∀ (s : List Char) (b : Nat), (∀ c ∈ s, ¬ c = ' ') → rfindSpaceAux s b = none := by
  intro s
  induction s with
  | nil => intro b _; simp [rfindSpaceAux]
  | cons c t ih =>
    intro b h
    unfold rfindSpaceAux
    simp only [ih (b + 1) (fun x hx => h x (List.mem_cons_of_mem _ hx))]
    simp [h c (List.mem_cons_self _ _)]

/-- C1 (amended): for every string longer than 350 characters the truncation
of `parse_skills_response` produces at most 351 characters; when the first
350 characters contain a space at a positive index the output has at most
350 characters; when the window contains no whitespace at all (the
degenerate case, e.g. a 360-character word) the output has exactly 351
characters — the 350-character hard cut plus the unconditionally appended
period; and a word-boundary cut lands on a space of the original string. -/
theorem C1_truncation_amended :
    ∀ s : String, 350 < s.data.length →
    (truncateContrib s).data.length ≤ 351
    ∧ (∀ i, 0 < i → i < 350 → s.data.getD i 'x' = ' ' →
        (truncateContrib s).data.length ≤ 350)
    ∧ ((∀ c ∈ s.data.take 350, isWsChar c = false) →
        (truncateContrib s).data.length = 351)
    ∧ (∀ j, rfindSpace (s.data.take 350) = some j → 0 < j →
        s.data.getD j 'x' = ' '
        ∧ (truncateContrib s).data = rstripList (s.data.take j) ++ ['.']) := by
  intro s hlen
  have hwl : (s.data.take 350).length = 350 := by
    rw [List.length_take]; omega
  have hmain : ∀ t2 : List Char, (rstripList t2 ++ ['.']).length = (rstripList t2).length + 1 := by
    intro t2; simp
  refine ⟨?_, ?_, ?_, ?_⟩
  · simp only [truncateContrib, gt_iff_lt, hlen, if_true, data_mk]
    cases hf : rfindSpace (s.data.take 350) with
    | none =>
      simp only [hf]
      have h1 := rstripList_length_le (s.data.take 350)
      rw [hmain]
      omega
    | some j =>
      simp only [hf]
      by_cases hj : 0 < j
      · rw [if_pos hj]
        have h1 := rstripList_length_le ((s.data.take 350).take j)
        have h2 : ((s.data.take 350).take j).length ≤ 350 := by
          rw [List.length_take, hwl]; omega
        rw [hmain]
        omega
      · rw [if_neg hj]
        have h1 := rstripList_length_le (s.data.take 350)
        rw [hmain]
        omega
  · intro i hi hi350 hsp
    have hwsp : (s.data.take 350).getD i 'x' = ' ' := by
      rw [getD_take_of_lt _ _ hi350]
      exact hsp
    obtain ⟨j, hj, hle⟩ := rfindSpaceAux_exists (s.data.take 350) 0 i (by omega) hwsp
    have hjlt := (rfindSpaceAux_spec (s.data.take 350) 0 j hj).1
    rw [hwl] at hjlt
    simp only [Nat.sub_zero] at hjlt
    have hjr : rfindSpace (s.data.take 350) = some j := hj
    simp only [truncateContrib, gt_iff_lt, hlen, if_true, data_mk, hjr]
    rw [if_pos (by omega)]
    have h1 := rstripList_length_le ((s.data.take 350).take j)
    have h2 : ((s.data.take 350).take j).length ≤ j := by
      rw [List.length_take, hwl]; omega
    rw [hmain]
    omega
  · intro hnws
    have hnsp : ∀ c ∈ s.data.take 350, ¬ c = ' ' := by
      intro c hc hceq
      have := hnws c hc
      rw [hceq] at this
      simp [isWsChar] at this
    have hf : rfindSpace (s.data.take 350) = none := rfindSpaceAux_none _ 0 hnsp
    simp only [truncateContrib, gt_iff_lt, hlen, if_true, data_mk, hf]
    rw [hmain, rstripList_eq_self hnws, hwl]
  · intro j hj hjpos
    have hjlt := (rfindSpaceAux_spec (s.data.take 350) 0 j hj).1
    have hsp := (rfindSpaceAux_spec (s.data.take 350) 0 j hj).2
    simp only [Nat.sub_zero] at hjlt hsp
    rw [hwl] at hjlt
    constructor
    · rw [getD_take_of_lt _ _ hjlt] at hsp
      exact hsp
    · simp only [truncateContrib, gt_iff_lt, hlen, if_true, data_mk, hj]
      rw [if_pos hjpos]
      have htt : (s.data.take 350).take j = s.data.take j := by
        rw [List.take_take]
        congr 1
        omega
      rw [htt]

set_option maxRecDepth 4000 in
/-- C1 witness for the amended theorem: a 360-character input whose
350-character window has a space at index 340; the truncation stays within
350 characters there. -/
theorem C1_truncation_amended_witness :
    350 < (String.mk (List.replicate 340 'a' ++ [' '] ++ List.replicate 19 'b')).data.length
    ∧ (truncateContrib
        (String.mk (List.replicate 340 'a' ++ [' '] ++ List.replicate 19 'b'))).data.length
        ≤ 350 := by
  refine ⟨by decide, ?_⟩
  exact (C1_truncation_amended
    (String.mk (List.replicate 340 'a' ++ [' '] ++ List.replicate 19 'b'))
    (by decide)).2.1 340 (by decide) (by decide) (by decide)

set_option maxRecDepth 8000 in
/-- C1 counterexample to the claim as stated: a 360-character string with no
whitespace whose 350th character is a period.  The truncation returns 351
characters (not at most 350, and not exactly 350 in the degenerate case) and
appends a period although the cut already ends in one. -/
theorem C1_truncation_counterexample :
    (String.mk (List.replicate 349 'a' ++ ['.'] ++ List.replicate 10 'b')).data.length = 360
    ∧ (String.mk (List.replicate 349 'a' ++ ['.'] ++ List.replicate 10 'b')).data.all
        (fun c => !isWsChar c) = true
    ∧ (truncateContrib
        (String.mk (List.replicate 349 'a' ++ ['.'] ++ List.replicate 10 'b'))).data.length
        = 351
    ∧ (truncateContrib
        (String.mk (List.replicate 349 'a' ++ ['.'] ++ List.replicate 10 'b'))).data
        = List.replicate 349 'a' ++ ['.', '.'] := by
  refine ⟨by decide, by decide, by decide, by decide⟩

/-- C2 (amended): in `parse_skills_response` the secondary technology source
(`matched_skills`, extended with `job_skills` below 10 entries, capped at 20)
is used exactly when the primary `relevant_technologies` list is empty, with
`job_skills.take 20` as last resort, and the three hardcoded contribution
defaults are installed exactly when the AI contribution list is empty; but
`_get_value_contributions_for_cover_letter` pads per position: the first
three primary items are kept and every position beyond the primary's length
is filled with the corresponding hardcoded fallback statement, even when the
primary list is non-empty. -/
theorem C2_fallback_amended :
    ∀ d : SkillsData,
    ((parseSkillsFix d).relevant_technologies =
      if d.relevant_technologies.isEmpty then
        (if d.matched_skills.isEmpty then d.job_skills.take 20
         else (if d.matched_skills.length < 10 then d.matched_skills ++ d.job_skills
               else d.matched_skills).take 20)
      else d.relevant_technologies)
    ∧ ((parseSkillsFix d).key_value_contributions =
        (if d.key_value_contributions.isEmpty then defaultContributions
         else d.key_value_contributions).map truncateContrib)
    ∧ (∀ kvc : List String, getValueContributionsForCoverLetter kvc =
        kvc.take 3 ++ coverLetterFallbacks.drop (kvc.take 3).length) := by
  intro d
  refine ⟨rfl, rfl, ?_⟩
  intro kvc
  rcases kvc with (_ | ⟨a, (_ | ⟨b, (_ | ⟨c, t⟩)⟩)⟩) <;> rfl

set_option maxRecDepth 4000 in
/-- C2 counterexample to the claim as stated: with the non-empty primary
list `["X"]`, the cover-letter output contains hardcoded default statements
at positions 1 and 2, although the prior source is non-empty. -/
theorem C2_fallback_counterexample :
    (["X"] : List String) ≠ []
    ∧ getValueContributionsForCoverLetter ["X"] =
        ["X", coverLetterFallbacks.getD 1 "", coverLetterFallbacks.getD 2 ""]
    ∧ coverLetterFallbacks.getD 1 "" ∈ coverLetterFallbacks := by
  exact ⟨by decide, rfl, by decide⟩

/-- C3 (amended): `create_translation_loader` does propagate a load failure
or a structural-validation failure to its caller, so a malformed dictionary
never becomes a usable loader; but `TemplateProcessor.__init__` catches that
error and constructs the processor with `translation_loader = None`
(the English fallback) instead of raising it — construction of the rendering
pipeline itself never propagates the error. -/
theorem C3_construction_amended :
    (∀ (d : TransDict) (e : String), validate_structure d = Except.error e →
      create_translation_loader (Except.ok d) = Except.error e
      ∧ (TemplateProcessor.init (Except.ok d)).translation_loader = none)
    ∧ (∀ msg : String,
      create_translation_loader (Except.error msg) = Except.error msg
      ∧ (TemplateProcessor.init (Except.error msg)).translation_loader = none) := by
  constructor
  · intro d e h
    have hc : create_translation_loader (Except.ok d) = Except.error e := by
      simp [create_translation_loader, TranslationLoader.init, validate_structure,
        bind, Except.bind, pure, Except.pure] at h ⊢
      cases hv : validateAll d with
      | ok u => rw [hv] at h; simp at h
      | error e2 => rw [hv] at h; simp at h; simp [h]
    exact ⟨hc, by simp [TemplateProcessor.init, hc]⟩
  · intro msg
    have hc : create_translation_loader (Except.error msg) = Except.error msg := by
      simp [create_translation_loader, TranslationLoader.init, bind, Except.bind]
    exact ⟨hc, by simp [TemplateProcessor.init, hc]⟩

/-- C3 witness: the amended theorem applied to a concrete dictionary with an
empty `en` locale. -/
theorem C3_construction_amended_witness :
    create_translation_loader (Except.ok [("en", TransVal.obj [])]) =
      Except.error "Missing section 'cv' in language 'en'"
    ∧ (TemplateProcessor.init (Except.ok [("en", TransVal.obj [])])).translation_loader
        = none :=
  C3_construction_amended.1 [("en", TransVal.obj [])]
    "Missing section 'cv' in language 'en'" rfl

/-- C3 counterexample to the claim as stated: for a malformed dictionary and
for a missing translations file, `TemplateProcessor.__init__` completes
normally (no error reaches its caller) and leaves `translation_loader =
None`; rendering then proceeds in the English fallback rather than being
prevented. -/
theorem C3_construction_counterexample :
    validate_structure [("en", TransVal.obj [])] =
      Except.error "Missing section 'cv' in language 'en'"
    ∧ (TemplateProcessor.init (Except.ok [("en", TransVal.obj [])])).translation_loader
        = none
    ∧ (TemplateProcessor.init
        (Except.error "Translations file not found: translations.json")).translation_loader
        = none := by
  exact ⟨rfl, rfl, rfl⟩

/-! ### Characterisation of `validate_structure` (claim C4) -/

/-- Completeness of a single present locale's data: both required sections
exist and every required key exists in the respective section (for a
non-object locale value the code necessarily errors, either at the section
membership test or at the `lang_data['cv']` indexing). -/
def langComplete : TransVal → Bool
  | .str _ => false
  | .obj fs =>
    hasKeyB "cv" (.obj fs) && hasKeyB "cover_letter" (.obj fs) &&
    (match fs.find? (fun p => p.1 = "cv") with
     | some p => requiredCvKeys.all (fun k => hasKeyB k p.2)
     | none => false) &&
    (match fs.find? (fun p => p.1 = "cover_letter") with
     | some p => requiredClKeys.all (fun k => hasKeyB k p.2)
     | none => false)

theorem checkSections_ok_iff (lang : String) (ld : TransVal) :
    ∀ secs : List String,
      (checkSections lang ld secs = Except.ok () ↔ secs.all (fun s => hasKeyB s ld) = true) := by
  intro secs
  induction secs with
  | nil => simp [checkSections]
  | cons s rest ih =>
    unfold checkSections
    by_cases hs : hasKeyB s ld = true
    · simp [hs, ih]
    · simp [hs]

theorem checkKeys_ok_iff (msg lang : String) (v : TransVal) :
    ∀ keys : List String,
      (checkKeys msg lang v keys = Except.ok () ↔ keys.all (fun k => hasKeyB k v) = true) := by
  intro keys
  induction keys with
  | nil => simp [checkKeys]
  | cons k rest ih =>
    unfold checkKeys
    by_cases hk : hasKeyB k v = true
    · simp [hk, ih]
    · simp [hk]

theorem validateLang_ok_iff (lang : String) (ld : TransVal) :
    validateLang lang ld = Except.ok () ↔ langComplete ld = true := by
  cases ld with
  | str v =>
    simp only [langComplete]
    constructor
    · intro h
      exfalso
      unfold validateLang at h
      cases hcs : checkSections lang (.str v) requiredSections with
      | error e => simp [hcs, bind, Except.bind] at h
      | ok u =>
        cases u
        simp [hcs, bind, Except.bind, getKeyE] at h
    · intro h; exact absurd h (by simp)
  | obj fs =>
    unfold validateLang
    by_cases hcv : hasKeyB "cv" (TransVal.obj fs) = true
    · by_cases hcl : hasKeyB "cover_letter" (TransVal.obj fs) = true
      · have hcs : checkSections lang (.obj fs) requiredSections = Except.ok () := by
          rw [checkSections_ok_iff]
          simp [requiredSections, hcv, hcl]
        rw [hcs]
        have hfindcv : (fs.find? (fun p => p.1 = "cv")).isSome = true := by
          rw [List.find?_isSome]
          simpa [hasKeyB, List.any_eq_true] using hcv
        have hfindcl : (fs.find? (fun p => p.1 = "cover_letter")).isSome = true := by
          rw [List.find?_isSome]
          simpa [hasKeyB, List.any_eq_true] using hcl
        cases hfcv : fs.find? (fun p => p.1 = "cv") with
        | none => rw [hfcv] at hfindcv; simp at hfindcv
        | some pcv =>
          cases hfcl : fs.find? (fun p => p.1 = "cover_letter") with
          | none => rw [hfcl] at hfindcl; simp at hfindcl
          | some pcl =>
            have hgetcv : getKeyE "cv" (.obj fs) = Except.ok pcv.2 := by
              simp [getKeyE, hfcv]
            have hgetcl : getKeyE "cover_letter" (.obj fs) = Except.ok pcl.2 := by
              simp [getKeyE, hfcl]
            simp only [bind, Except.bind, hgetcv, hgetcl, langComplete, hfcv, hfcl,
              hcv, hcl, Bool.true_and]
            by_cases hkcv : requiredCvKeys.all (fun k => hasKeyB k pcv.2) = true
            · have h1 : checkKeys "CV" lang pcv.2 requiredCvKeys = Except.ok () := by
                rw [checkKeys_ok_iff]; exact hkcv
              simp only [h1, hkcv, Bool.true_and]
              rw [checkKeys_ok_iff]
            · cases hck : checkKeys "CV" lang pcv.2 requiredCvKeys with
              | ok u =>
                rw [checkKeys_ok_iff] at hck
                exact absurd hck hkcv
              | error e =>
                simp [hck, hkcv]
      · have hcs : ∃ e, checkSections lang (.obj fs) requiredSections = Except.error e := by
          unfold checkSections requiredSections
          simp [hcv, hcl, checkSections]
        obtain ⟨e, hcs⟩ := hcs
        rw [hcs]
        simp [bind, Except.bind, langComplete, hcl]
    · have hcs : ∃ e, checkSections lang (.obj fs) requiredSections = Except.error e := by
        unfold checkSections requiredSections
        simp [hcv]
      obtain ⟨e, hcs⟩ := hcs
      rw [hcs]
      simp [bind, Except.bind, langComplete, hcv]

theorem validateAll_ok_iff :
    ∀ d : TransDict, (validateAll d = Except.ok () ↔ ∀ p ∈ d, langComplete p.2 = true) := by
  intro d
  induction d with
  | nil => simp [validateAll]
  | cons hd rest ih =>
    unfold validateAll
    cases hv : validateLang hd.1 hd.2 with
    | ok u =>
      cases u
      rw [validateLang_ok_iff] at hv
      simp [bind, Except.bind, ih, hv]
    | error e =>
      have hnc : ¬ langComplete hd.2 = true := by
        rw [← validateLang_ok_iff hd.1 hd.2]
        simp [hv]
      simp only [bind, Except.bind]
      constructor
      · intro h; simp at h
      · intro h
        exact absurd (h hd (List.mem_cons_self _ _)) hnc

theorem validateAll_shape :
    ∀ d : TransDict, validateAll d = Except.ok () ∨ ∃ e, validateAll d = Except.error e := by
  intro d
  induction d with
  | nil => left; rfl
  | cons hd rest ih =>
    unfold validateAll
    cases hv : validateLang hd.1 hd.2 with
    | ok u =>
      cases u
      simpa [bind, Except.bind] using ih
    | error e =>
      right
      exact ⟨e, by simp [bind, Except.bind]⟩

/-- C4 (amended): at construction the validation walks exactly the locales
present in the loaded dictionary (its top-level keys), not the closed set
`{en, fr, es}`: it succeeds iff every present locale carries every required
section and key, and raises a fatal error whenever any present locale is
incomplete.  A locale that is absent from the dictionary altogether (such as
a dictionary containing only a complete `en`) is not checked, and
construction succeeds. -/
theorem C4_validation_amended :
    (∀ d : TransDict,
      validate_structure d = Except.ok true ↔ ∀ p ∈ d, langComplete p.2 = true)
    ∧ (∀ d : TransDict, (∃ p ∈ d, langComplete p.2 = false) →
        ∃ e, validate_structure d = Except.error e
          ∧ create_translation_loader (Except.ok d) = Except.error e) := by
  constructor
  · intro d
    unfold validate_structure
    cases validateAll_shape d with
    | inl h =>
      rw [h]
      simp only [bind, Except.bind, pure, Except.pure]
      rw [validateAll_ok_iff] at h
      exact iff_of_true trivial h
    | inr h =>
      obtain ⟨e, he⟩ := h
      rw [he]
      simp only [bind, Except.bind]
      have hno : ¬ ∀ p ∈ d, langComplete p.2 = true := by
        rw [← validateAll_ok_iff]
        simp [he]
      exact iff_of_false (by simp) hno
  · intro d hex
    have hne : ¬ ∀ p ∈ d, langComplete p.2 = true := by
      intro hall
      obtain ⟨p, hp, hfalse⟩ := hex
      rw [hall p hp] at hfalse
      simp at hfalse
    cases validateAll_shape d with
    | inl h =>
      rw [validateAll_ok_iff] at h
      exact absurd h hne
    | inr h =>
      obtain ⟨e, he⟩ := h
      refine ⟨e, ?_, ?_⟩
      · unfold validate_structure
        rw [he]
        simp [bind, Except.bind]
      · unfold create_translation_loader TranslationLoader.init
        simp only [bind, Except.bind, pure, Except.pure]
        unfold validate_structure
        rw [he]
        simp [bind, Except.bind]

/-- C4 witness: the amended theorem applied to the dictionary
`{"fr": {}}` whose single present locale is incomplete. -/
theorem C4_validation_amended_witness :
    ∃ e, validate_structure [("fr", TransVal.obj [])] = Except.error e
      ∧ create_translation_loader (Except.ok [("fr", TransVal.obj [])]) = Except.error e :=
  C4_validation_amended.2 [("fr", TransVal.obj [])]
    ⟨("fr", TransVal.obj []), List.mem_cons_self _ _, rfl⟩

/-- A dictionary containing only a structurally complete `en` locale. -/
def enOnlyDict : TransDict :=
  [("en", TransVal.obj
    [("cv", TransVal.obj (requiredCvKeys.map (fun k => (k, TransVal.str "")))),
     ("cover_letter", TransVal.obj (requiredClKeys.map (fun k => (k, TransVal.str ""))))])]

/-- C4 counterexample to the claim as stated: the dictionary `enOnlyDict`
has no `fr` (and no `es`) locale at all, yet `validate_structure` succeeds
and `create_translation_loader` constructs a loader instead of raising a
fatal error — validation does not walk the closed set `{en, fr, es}`. -/
theorem C4_validation_counterexample :
    validate_structure enOnlyDict = Except.ok true
    ∧ (create_translation_loader (Except.ok enOnlyDict)).isOk = true
    ∧ enOnlyDict.map Prod.fst = ["en"] := by
  exact ⟨rfl, rfl, rfl⟩

/-- C6 counterexample to the claim as stated: the two maps are permutations
of one another with unique literal keys ("A" ≠ "B"), yet applying the pairs in
the two insertion orders to the template `{A}` produces different outputs,
because the value of `A` is itself the placeholder `{B}`. -/
theorem C6_commutativity_counterexample :
    List.Perm [(("A" : String), ("\x7bB\x7d" : String)), ("B", "x")]
      [("B", "x"), ("A", "\x7bB\x7d")]
    ∧ ("A" : String) ≠ "B"
    ∧ replace_placeholders "\x7bA\x7d" [("A", "\x7bB\x7d"), ("B", "x")] = Except.ok "x"
    ∧ replace_placeholders "\x7bA\x7d" [("B", "x"), ("A", "\x7bB\x7d")] =
        Except.ok "\x7bB\x7d"
    ∧ ("x" : String) ≠ "\x7bB\x7d" := by
  exact ⟨by decide, by decide, rfl, rfl, by decide⟩

/-- C7 counterexample to the claim as stated: the keys "A" and "X" are
unique and the values "y" and "A" contain no placeholder syntax at all (no
brace, bracket or comment characters), yet substitution on `{{X}}` is not
idempotent: the first application yields `{A}` (the inserted value welds
with the template's outer braces into a new placeholder) and the second
yields `y`. -/
theorem C7_idempotence_counterexample :
    (∀ v ∈ [("y" : String), "A"], ∀ c ∈ v.data,
      c ≠ '\x7b' ∧ c ≠ '\x7d' ∧ c ≠ '[' ∧ c ≠ ']' ∧ c ≠ '<' ∧ c ≠ '>')
    ∧ ("A" : String) ≠ "X"
    ∧ replace_placeholders "\x7b\x7bX\x7d\x7d" [("A", "y"), ("X", "A")] =
        Except.ok "\x7bA\x7d"
    ∧ replace_placeholders "\x7bA\x7d" [("A", "y"), ("X", "A")] = Except.ok "y"
    ∧ ("\x7bA\x7d" : String) ≠ "y" := by
  exact ⟨by decide, by decide, rfl, rfl, by decide⟩

/-! ### Replacement-value expansion (claim C10) -/

theorem expandReplAux_of_no_backslash :
    ∀ (fuel : Nat) (v : List Char), v.length ≤ fuel → '\\' ∉ v →
      expandReplAux fuel v = Except.ok v := by
  intro fuel
  induction fuel with
  | zero =>
    intro v h _
    have : v = [] := List.eq_nil_of_length_eq_zero (by omega)
    subst this
    rfl
  | succ fuel ih =>
    intro v h hb
    cases v with
    | nil => rfl
    | cons c rest =>
      have hc : ¬ c = '\\' := fun hc => hb (hc ▸ List.mem_cons_self _ _)
      have hrest : '\\' ∉ rest := fun hr => hb (List.mem_cons_of_mem _ hr)
      show expandReplAux (fuel + 1) (c :: rest) = _
      unfold expandReplAux
      simp only [hc, if_false]
      rw [ih rest (by simp only [List.length_cons] at h; omega) hrest]
      rfl

theorem expandRepl_of_no_backslash :
    ∀ v : List Char, '\\' ∉ v → expandRepl v = Except.ok v := by
  intro v hb
  exact expandReplAux_of_no_backslash v.length v (le_refl _) hb

theorem foldlM_subst_ok :
    ∀ (rs : List (String × String)) (t : List Char),
      (∀ kv ∈ rs, '\\' ∉ kv.2.data) →
      (rs.foldlM (fun (acc : List Char) kv => do
          let ev ← expandRepl kv.2.data
          pure (substKeyOne kv.1.data ev acc)) t)
        = Except.ok (substAll (rs.map fun kv => (kv.1.data, kv.2.data)) t) := by
  intro rs
  induction rs with
  | nil => intro t _; rfl
  | cons kv rest ih =>
    intro t h
    have h1 : '\\' ∉ kv.2.data := h kv (List.mem_cons_self _ _)
    have h2 : ∀ p ∈ rest, '\\' ∉ p.2.data := fun p hp => h p (List.mem_cons_of_mem _ hp)
    rw [List.foldlM_cons]
    rw [expandRepl_of_no_backslash _ h1]
    simp only [bind, Except.bind, pure, Except.pure]
    exact ih _ h2

/-- C10: `replace_placeholders` regex-escapes each key (keys are matched as
literal text) but passes the replacement value to `re.sub` unexpanded: for
every map whose values are free of backslashes the values are inserted
literally (the pure substitution `substAll`), while a value ending in a lone
backslash or containing `\g<name>` raises even when nothing matches, and a
value containing `\n` inserts a newline rather than the two literal
characters. -/
theorem C10_replacement_expansion :
    (∀ (template : String) (rs : List (String × String)),
      (∀ kv ∈ rs, '\\' ∉ kv.2.data) →
      replace_placeholders template rs =
        Except.ok ⟨substAll (rs.map fun kv => (kv.1.data, kv.2.data)) template.data⟩)
    ∧ replace_placeholders "\x7bA\x7d" [("A", "back\\")] =
        Except.error "bad escape (end of pattern)"
    ∧ replace_placeholders "no placeholder" [("A", "\\g<x>")] =
        Except.error "missing <, unknown group name, or bad character in group name"
    ∧ replace_placeholders "\x7bA\x7d" [("A", "a\\nb")] = Except.ok "a\nb"
    ∧ ("a\nb" : String) ≠ "a\\nb" := by
  refine ⟨?_, rfl, rfl, rfl, by decide⟩
  intro template rs h
  unfold replace_placeholders
  rw [foldlM_subst_ok rs template.data h]
  rfl

/-- C10 witness: the literal-insertion half of the theorem applied to a
concrete template and backslash-free values. -/
theorem C10_replacement_expansion_witness :
    replace_placeholders "\x7bA\x7d and [B]" [("A", "hello"), ("B", "wo rld")] =
      Except.ok ⟨substAll ([(("A" : String), ("hello" : String)), ("B", "wo rld")].map
        fun kv => (kv.1.data, kv.2.data)) "\x7bA\x7d and [B]".data⟩
    ∧ replace_placeholders "\x7bA\x7d and [B]" [("A", "hello"), ("B", "wo rld")] =
      Except.ok "hello and wo rld" := by
  refine ⟨?_, rfl⟩
  exact (C10_replacement_expansion.1 "\x7bA\x7d and [B]" [("A", "hello"), ("B", "wo rld")]
    (by decide))

/-! ### Well-formed templates and maps (claims C6 and C7)

The counterexamples above show that with arbitrary values or nested
delimiters a replacement can weld with surrounding template text into a new
placeholder, breaking order-independence and idempotence.  Both properties
do hold on the class of templates that are an alternation of delimiter-free
literal text and complete placeholder tokens, with delimiter-free keys and
values — the class the repository's templates belong to.  The definitions
below carve out that class and the lemmas compute `replace_placeholders`
segment-wise on it. -/

/-- Characters that can participate in placeholder delimiters (all three
bracket pairs, the comment markers' `<`, `>` and `-`) plus the backslash
(special in `re.sub` replacement values). -/
def delimChars : List Char := ['\x7b', '\x7d', '[', ']', '<', '>', '-', '\\']

/-- A character that cannot contribute to any delimiter. -/
def plainChar (c : Char) : Bool := !(delimChars.contains c)

/-- A string of delimiter-free characters. -/
def plainStr (s : List Char) : Bool := s.all plainChar

/-- An all-whitespace string. -/
def wsStr (s : List Char) : Bool := s.all isWsChar

/-- A usable placeholder key or token core: delimiter-free, non-empty, with
non-whitespace first and last characters. -/
def keyLike (s : List Char) : Bool :=
  plainStr s &&
  (match s with
   | [] => false
   | c :: _ => !isWsChar c) &&
  (match s.getLast? with
   | some c => !isWsChar c
   | none => false)

/-- Characters that can open one of the three patterns. -/
def openHeadChars : List Char := ['<', '\x7b', '[']

/-- A character at which no pattern match can start. -/
def noOpenChar (c : Char) : Bool := !(openHeadChars.contains c)

/-! #### Case-folding facts -/

theorem lowerChar_cases (c : Char) :
    lowerChar c = c ∨ ∃ p ∈ upperLower, p.1 = c ∧ lowerChar c = p.2 := by
  cases hf : upperLower.find? (fun p => p.1 = c) with
  | none => left; simp [lowerChar, hf]
  | some p =>
    right
    refine ⟨p, List.mem_of_find?_eq_some hf, ?_, by simp [lowerChar, hf]⟩
    have := List.find?_some hf
    simpa using this

theorem isWsChar_lowerChar (c : Char) : isWsChar (lowerChar c) = isWsChar c := by
  cases lowerChar_cases c with
  | inl h => rw [h]
  | inr h =>
    obtain ⟨p, hp, hc, hl⟩ := h
    have hfacts : ∀ q ∈ upperLower, isWsChar q.1 = false ∧ isWsChar q.2 = false := by
      decide
    rw [hl, ← hc]
    rw [(hfacts p hp).1, (hfacts p hp).2]

theorem cfEq_isWs {a b : Char} (h : cfEq a b = true) : isWsChar a = isWsChar b := by
  have hl : lowerChar a = lowerChar b := by
    simpa [cfEq] using h
  rw [← isWsChar_lowerChar a, ← isWsChar_lowerChar b, hl]

theorem cfEq_concrete_delim {a d : Char} (h : cfEq a d = true)
    (hfix : lowerChar d = d)
    (hni : upperLower.all (fun p => !(p.2 = d)) = true) : a = d := by
  have hl : lowerChar a = d := by
    have : lowerChar a = lowerChar d := by simpa [cfEq] using h
    rw [this, hfix]
  cases lowerChar_cases a with
  | inl hfa => rw [← hfa, hl]
  | inr hca =>
    obtain ⟨p, hp, hc, hlp⟩ := hca
    exfalso
    have := List.all_eq_true.mp hni p hp
    rw [hlp] at hl
    simp [hl] at this

theorem plainChar_not_open {c : Char} (h : plainChar c = true) : noOpenChar c = true := by
  simp only [plainChar, delimChars, Bool.not_eq_true', List.contains_cons, List.contains_nil,
    Bool.or_eq_false_iff, beq_eq_false_iff_ne, ne_eq] at h
  simp only [noOpenChar, openHeadChars, Bool.not_eq_true', List.contains_cons, List.contains_nil,
    Bool.or_eq_false_iff, beq_eq_false_iff_ne, ne_eq]
  tauto

theorem isWsChar_not_open {c : Char} (h : isWsChar c = true) : noOpenChar c = true := by
  simp only [isWsChar, Bool.or_eq_true, decide_eq_true_eq] at h
  rcases h with ((((h | h) | h) | h) | h) | h <;> subst h <;> decide

theorem isWsChar_plain_iff {c : Char} (h : isWsChar c = true) : plainChar c = true := by
  simp only [isWsChar, Bool.or_eq_true, decide_eq_true_eq] at h
  rcases h with ((((h | h) | h) | h) | h) | h <;> subst h <;> decide

/-! #### Scanning and matching lemmas -/

theorem startsLit_append_self : ∀ p t : List Char, startsLit p (p ++ t) = true := by
  intro p
  induction p with
  | nil => intro t; rfl
  | cons c cs ih => intro t; simp [startsLit, ih]

theorem formMatch_nil (f : PForm) (key : List Char) : formMatch f key [] = none := by
  cases f <;> rfl

theorem formMatch_cons_none_of_noOpen {c : Char} (f : PForm) (key : List Char)
    (t : List Char) (h : noOpenChar c = true) : formMatch f key (c :: t) = none := by
  have h1 : ¬ '<' = c := by
    intro hx
    rw [← hx] at h
    exact absurd h (by decide)
  have h2 : ¬ '\x7b' = c := by
    intro hx
    rw [← hx] at h
    exact absurd h (by decide)
  have h3 : ¬ '[' = c := by
    intro hx
    rw [← hx] at h
    exact absurd h (by decide)
  have hsl : ∀ (x : Char) (ps : List Char), ¬ x = c →
      startsLit (x :: ps) (c :: t) = false := by
    intro x ps hx
    simp [startsLit, hx]
  cases f
  · unfold formMatch matchAt
    rw [show opnOf PForm.comment = '<' :: ['!', '-', '-'] from rfl, hsl '<' _ h1]
    rfl
  · unfold formMatch matchAt
    rw [show opnOf PForm.brace = '\x7b' :: [] from rfl, hsl _ _ h2]
    rfl
  · unfold formMatch matchAt
    rw [show opnOf PForm.bracket = '[' :: [] from rfl, hsl _ _ h3]
    rfl

theorem scanSub_append_noOpen (f : PForm) (key v : List Char) :
    ∀ s y : List Char, (∀ c ∈ s, noOpenChar c = true) →
      scanSub f key v (s ++ y) = s ++ scanSub f key v y := by
  intro s
  induction s with
  | nil => intro y _; rfl
  | cons c t ih =>
    intro y h
    have hc := h c (List.mem_cons_self _ _)
    rw [List.cons_append,
      scanSub_cons_none v (formMatch_cons_none_of_noOpen f key (t ++ y) hc),
      ih y (fun x hx => h x (List.mem_cons_of_mem _ hx))]
    rfl

theorem wsRun_append_stop :
    ∀ (w : List Char) (d : Char) (z : List Char), wsStr w = true → isWsChar d = false →
      wsRun (w ++ d :: z) = w.length := by
  intro w
  induction w with
  | nil => intro d z _ hd; simp [wsRun, hd]
  | cons c t ih =>
    intro d z hw hd
    simp only [wsStr, List.all_cons, Bool.and_eq_true] at hw
    simp only [List.cons_append, wsRun, hw.1, if_true, List.length_cons, List.append_eq]
    rw [ih d z hw.2 hd]

theorem wsRun_lt_of_exists :
    ∀ (l z : List Char), (∃ c ∈ l, isWsChar c = false) → wsRun (l ++ z) < l.length := by
  intro l
  induction l with
  | nil => intro z h; simp at h
  | cons c t ih =>
    intro z h
    by_cases hc : isWsChar c = true
    · obtain ⟨d, hd, hdw⟩ := h
      have hdt : d ∈ t := by
        cases List.mem_cons.mp hd with
        | inl he => rw [he] at hdw; rw [hdw] at hc; cases hc
        | inr ht => exact ht
      simp only [List.cons_append, wsRun, hc, if_true, List.length_cons, List.append_eq]
      have := ih z ⟨d, hdt, hdw⟩
      omega
    · simp [List.cons_append, wsRun, hc]

theorem drop_head_mem {l : List Char} {n : Nat} (h : n < l.length) :
    ∀ z : List Char, ∃ d r, (l ++ z).drop n = d :: r ∧ d ∈ l := by
  induction l generalizing n with
  | nil => simp at h
  | cons c t ih =>
    intro z
    cases n with
    | zero => exact ⟨c, t ++ z, rfl, List.mem_cons_self _ _⟩
    | succ n2 =>
      simp only [List.length_cons, Nat.succ_lt_succ_iff] at h
      obtain ⟨d, r, hdr, hd⟩ := ih h z
      exact ⟨d, r, hdr, List.mem_cons_of_mem _ hd⟩

theorem getLast?_cons_of_ne_nil {c : Char} {t : List Char} (h : t ≠ []) :
    (c :: t).getLast? = t.getLast? := by
  cases t with
  | nil => exact absurd rfl h
  | cons d r => rfl

theorem getLast?_drop_of_lt :
    ∀ (l : List Char) (n : Nat), n < l.length → (l.drop n).getLast? = l.getLast? := by
  intro l
  induction l with
  | nil => intro n h; simp at h
  | cons c t ih =>
    intro n h
    cases n with
    | zero => rfl
    | succ n2 =>
      simp only [List.length_cons, Nat.succ_lt_succ_iff] at h
      have ht : t ≠ [] := by
        intro he
        rw [he] at h
        simp at h
      rw [List.drop_succ_cons, ih n2 h, getLast?_cons_of_ne_nil ht]

theorem tryClose_top {cls t : List Char} {j : Nat}
    (h : startsLit cls (t.drop j) = true) : tryClose cls t j = some (j + cls.length) := by
  cases j with
  | zero => simp only [List.drop_zero] at h; simp [tryClose, h]
  | succ j2 => simp [tryClose, h]

theorem tryClose_none {cls t : List Char} :
    ∀ j : Nat, (∀ j2, j2 ≤ j → startsLit cls (t.drop j2) = false) →
      tryClose cls t j = none := by
  intro j
  induction j with
  | zero =>
    intro h
    have h0 := h 0 (le_refl _)
    rw [List.drop_zero] at h0
    simp [tryClose, h0]
  | succ j2 ih =>
    intro h
    simp only [tryClose, h (j2 + 1) (le_refl _), if_false]
    exact ih (fun j3 hj3 => h j3 (by omega))

theorem tryKey_top {key cls t : List Char} {k : Nat} {n : Nat}
    (h : keyAttempt key cls t k = some n) : tryKey key cls t k = some n := by
  cases k with
  | zero => simpa [tryKey] using h
  | succ k2 => simp [tryKey, h]

theorem tryKey_none {key cls t : List Char} :
    ∀ k : Nat, (∀ k2, k2 ≤ k → keyAttempt key cls t k2 = none) →
      tryKey key cls t k = none := by
  intro k
  induction k with
  | zero =>
    intro h
    simp [tryKey, h 0 (le_refl _)]
  | succ k2 ih =>
    intro h
    simp only [tryKey, h (k2 + 1) (le_refl _)]
    exact ih (fun k3 hk3 => h k3 (by omega))

/-! #### Case-insensitive prefix lemmas -/

theorem cfList_length (s : List Char) : (cfList s).length = s.length :=
  List.length_map _ _

theorem startsCI_of_cf_append :
    ∀ (key core r : List Char), cfList key = cfList core →
      startsCI key (core ++ r) = true := by
  intro key
  induction key with
  | nil => intro core r _; rfl
  | cons k ks ih =>
    intro core r h
    cases core with
    | nil => simp [cfList] at h
    | cons c cs =>
      simp only [cfList, List.map_cons, List.cons.injEq] at h
      simp only [List.cons_append, startsCI, Bool.and_eq_true]
      exact ⟨by simp [cfEq, h.1], ih cs r h.2⟩

theorem startsCI_append_eq_cf :
    ∀ (key core r : List Char), key.length = core.length →
      startsCI key (core ++ r) = true → cfList key = cfList core := by
  intro key
  induction key with
  | nil =>
    intro core r hlen _
    cases core with
    | nil => rfl
    | cons c cs => simp at hlen
  | cons k ks ih =>
    intro core r hlen h
    cases core with
    | nil => simp at hlen
    | cons c cs =>
      simp only [List.length_cons, Nat.succ.injEq] at hlen
      simp only [List.cons_append, startsCI, Bool.and_eq_true] at h
      have hhd : lowerChar k = lowerChar c := by simpa [cfEq] using h.1
      simp only [cfList, List.map_cons, hhd, List.cons.injEq, true_and]
      exact ih cs r hlen h.2

theorem startsCI_drop :
    ∀ (core key r : List Char), core.length ≤ key.length →
      startsCI key (core ++ r) = true →
      startsCI (key.drop core.length) r = true := by
  intro core
  induction core with
  | nil =>
    intro key r _ h
    simpa using h
  | cons c cs ih =>
    intro key r hlen h
    cases key with
    | nil => simp at hlen
    | cons k ks =>
      simp only [List.cons_append, startsCI, Bool.and_eq_true] at h
      simp only [List.length_cons, List.drop_succ_cons]
      simp only [List.length_cons, Nat.succ_le_succ_iff] at hlen
      exact ih ks r hlen h.2

/-- Destructuring the `keyLike` conjunction. -/
theorem keyLike_parts {s : List Char} (h : keyLike s = true) :
    plainStr s = true
    ∧ (∀ c t, s = c :: t → isWsChar c = false)
    ∧ (∀ c, s.getLast? = some c → isWsChar c = false)
    ∧ s ≠ [] := by
  unfold keyLike at h
  cases s with
  | nil => simp at h
  | cons c t =>
    simp only [Bool.and_eq_true] at h
    obtain ⟨⟨hp, hh⟩, hl⟩ := h
    refine ⟨hp, ?_, ?_, by simp⟩
    · intro c2 t2 he
      rw [List.cons.injEq] at he
      rw [← he.1]
      simpa using hh
    · intro c2 hc2
      rw [hc2] at hl
      simpa using hl

theorem plainStr_mem {s : List Char} (h : plainStr s = true) {c : Char} (hc : c ∈ s) :
    plainChar c = true :=
  List.all_eq_true.mp h c hc

theorem plainStr_drop {s : List Char} (h : plainStr s = true) (n : Nat) :
    plainStr (s.drop n) = true := by
  apply List.all_eq_true.mpr
  intro c hc
  exact plainStr_mem h (List.mem_of_mem_drop hc)

theorem startsLit_cons_ne {x d : Char} {ps t : List Char} (h : ¬ x = d) :
    startsLit (x :: ps) (d :: t) = false := by
  simp [startsLit, h]

/-- The head character of each closing literal, with the facts used in the
contradiction arguments. -/
theorem clsOf_head (f : PForm) :
    ∃ ch ct, clsOf f = ch :: ct ∧ plainChar ch = false ∧ isWsChar ch = false
      ∧ lowerChar ch = ch ∧ upperLower.all (fun p => !(p.2 = ch)) = true := by
  cases f
  · exact ⟨'-', ['-', '>'], rfl, by decide, by decide, by decide, by decide⟩
  · exact ⟨'\x7d', [], rfl, by decide, by decide, by decide, by decide⟩
  · exact ⟨']', [], rfl, by decide, by decide, by decide, by decide⟩

/-- A delimiter-free, right-trimmed, non-empty string can never
case-insensitively start the remainder `whitespace ++ close ++ y` of a
token. -/
theorem startsCI_ws_cls_false (f : PForm) :
    ∀ (w2 k2 y : List Char),
      wsStr w2 = true → k2 ≠ [] → plainStr k2 = true →
      (∀ c, k2.getLast? = some c → isWsChar c = false) →
      startsCI k2 (w2 ++ (clsOf f ++ y)) = false := by
  intro w2
  induction w2 with
  | nil =>
    intro k2 y _ hne hplain hlast
    cases k2 with
    | nil => exact absurd rfl hne
    | cons a k2t =>
      obtain ⟨ch, ct, hcls, hchp, -, hfix, hni⟩ := clsOf_head f
      rw [List.nil_append, hcls, List.cons_append]
      simp only [startsCI]
      cases hac : cfEq a ch with
      | false => simp
      | true =>
        exfalso
        have ha := cfEq_concrete_delim hac hfix hni
        have hap : plainChar a = true := plainStr_mem hplain (List.mem_cons_self _ _)
        rw [ha, hchp] at hap
        cases hap
  | cons w w2t ih =>
    intro k2 y hws hne hplain hlast
    cases k2 with
    | nil => exact absurd rfl hne
    | cons a k2t =>
      simp only [wsStr, List.all_cons, Bool.and_eq_true] at hws
      rw [List.cons_append]
      simp only [startsCI]
      cases hac : cfEq a w with
      | false => simp
      | true =>
        have haw : isWsChar a = true := by rw [cfEq_isWs hac]; exact hws.1
        cases k2t with
        | nil =>
          exfalso
          have := hlast a rfl
          rw [haw] at this
          cases this
        | cons b k2tt =>
          simp only [Bool.true_and]
          apply ih (b :: k2tt) y hws.2 (by simp)
          · apply List.all_eq_true.mpr
            intro c hc
            exact plainStr_mem hplain (List.mem_cons_of_mem _ hc)
          · intro c hc
            apply hlast c
            rw [getLast?_cons_of_ne_nil (by simp : (b :: k2tt) ≠ [])]
            exact hc

/-! #### The token-match characterisation -/

/-- The rendered text of one placeholder token. -/
def tokStr (f : PForm) (w1 core w2 : List Char) : List Char :=
  opnOf f ++ (w1 ++ (core ++ (w2 ++ clsOf f)))

theorem matchAt_cons_head_ne {x : Char} {ps key cls : List Char} {d : Char}
    {t : List Char} (h : ¬ x = d) : matchAt (x :: ps) key cls (d :: t) = none := by
  unfold matchAt
  rw [startsLit_cons_ne h]
  rfl

theorem formMatch_tok_ne (f fT : PForm) (hne : ¬ f = fT) (key w1 core w2 y : List Char) :
    formMatch f key (tokStr fT w1 core w2 ++ y) = none := by
  cases f <;> cases fT <;>
    first
    | exact absurd rfl hne
    | (unfold formMatch
       exact matchAt_cons_head_ne (by decide))

theorem formMatch_tok_eq_cf (f : PForm) (key w1 core w2 y : List Char)
    (hw1 : wsStr w1 = true) (hw2 : wsStr w2 = true) (hcore : keyLike core = true)
    (hcf : cfList key = cfList core) :
    formMatch f key (tokStr f w1 core w2 ++ y) = some (tokStr f w1 core w2).length := by
  obtain ⟨hcp, hch, hcl, hcne⟩ := keyLike_parts hcore
  have hklen : key.length = core.length := by
    have := congrArg List.length hcf
    simpa [cfList_length] using this
  have hre : tokStr f w1 core w2 ++ y =
      opnOf f ++ (w1 ++ (core ++ (w2 ++ (clsOf f ++ y)))) := by
    simp [tokStr, List.append_assoc]
  obtain ⟨ch, ct2, hcls, -, hchw, -, -⟩ := clsOf_head f
  have hwsX : wsRun (w1 ++ (core ++ (w2 ++ (clsOf f ++ y)))) = w1.length := by
    cases hc0 : core with
    | nil => exact absurd hc0 hcne
    | cons c0 ct =>
      rw [List.cons_append]
      exact wsRun_append_stop w1 c0 _ hw1 (hch c0 ct hc0)
  have hdropX : (w1 ++ (core ++ (w2 ++ (clsOf f ++ y)))).drop w1.length =
      core ++ (w2 ++ (clsOf f ++ y)) := List.drop_left _ _
  have hci : startsCI key
      ((w1 ++ (core ++ (w2 ++ (clsOf f ++ y)))).drop w1.length) = true := by
    rw [hdropX]
    exact startsCI_of_cf_append _ _ _ hcf
  have hdrop2 : (w1 ++ (core ++ (w2 ++ (clsOf f ++ y)))).drop
      (w1.length + key.length) = w2 ++ (clsOf f ++ y) := by
    rw [← List.drop_drop, hdropX, hklen, List.drop_left]
  have hwsR3 : wsRun (w2 ++ (clsOf f ++ y)) = w2.length := by
    rw [hcls, List.cons_append]
    exact wsRun_append_stop w2 ch _ hw2 hchw
  have htc : tryClose (clsOf f) (w2 ++ (clsOf f ++ y)) w2.length =
      some (w2.length + (clsOf f).length) := by
    apply tryClose_top
    rw [List.drop_left]
    exact startsLit_append_self _ _
  have hka : keyAttempt key (clsOf f) (w1 ++ (core ++ (w2 ++ (clsOf f ++ y))))
      w1.length = some (w1.length + key.length + (w2.length + (clsOf f).length)) := by
    unfold keyAttempt
    rw [hci, if_pos rfl, hdrop2, hwsR3, htc]
  unfold formMatch matchAt
  rw [hre, startsLit_append_self, if_pos rfl, List.drop_left, hwsX, tryKey_top hka]
  simp only [Option.some.injEq, tokStr]
  simp only [List.length_append]
  omega

theorem formMatch_tok_ne_cf (f : PForm) (key w1 core w2 y : List Char)
    (hw1 : wsStr w1 = true) (hw2 : wsStr w2 = true)
    (hcore : keyLike core = true) (hkey : keyLike key = true)
    (hcf : ¬ cfList key = cfList core) :
    formMatch f key (tokStr f w1 core w2 ++ y) = none := by
  obtain ⟨hcp, hch, hcl, hcne⟩ := keyLike_parts hcore
  obtain ⟨hkp, hkh, hkl, hkne⟩ := keyLike_parts hkey
  have hre : tokStr f w1 core w2 ++ y =
      opnOf f ++ (w1 ++ (core ++ (w2 ++ (clsOf f ++ y)))) := by
    simp [tokStr, List.append_assoc]
  obtain ⟨ch, ct2, hcls, hchp, hchw, -, -⟩ := clsOf_head f
  have hwsX : wsRun (w1 ++ (core ++ (w2 ++ (clsOf f ++ y)))) = w1.length := by
    cases hc0 : core with
    | nil => exact absurd hc0 hcne
    | cons c0 ct =>
      rw [List.cons_append]
      exact wsRun_append_stop w1 c0 _ hw1 (hch c0 ct hc0)
  have hdropX : (w1 ++ (core ++ (w2 ++ (clsOf f ++ y)))).drop w1.length =
      core ++ (w2 ++ (clsOf f ++ y)) := List.drop_left _ _
  have hall : ∀ k, k ≤ w1.length →
      keyAttempt key (clsOf f) (w1 ++ (core ++ (w2 ++ (clsOf f ++ y)))) k = none := by
    intro k hk
    rcases Nat.lt_or_ge k w1.length with hklt | hkge
    · -- the leading \s* stops inside w1: the key's head would have to fold
      -- to a whitespace character
      obtain ⟨d, r, hdr, hd⟩ := drop_head_mem hklt (core ++ (w2 ++ (clsOf f ++ y)))
      have hdw : isWsChar d = true := List.all_eq_true.mp hw1 d hd
      obtain ⟨kh, kt, hk0⟩ : ∃ kh kt, key = kh :: kt := by
        cases key with
        | nil => exact absurd rfl hkne
        | cons kh kt => exact ⟨kh, kt, rfl⟩
      have hkhw : isWsChar kh = false := hkh kh kt hk0
      have hcif : startsCI key
          ((w1 ++ (core ++ (w2 ++ (clsOf f ++ y)))).drop k) = false := by
        rw [hdr, hk0]
        simp only [startsCI]
        cases hac : cfEq kh d with
        | false => simp
        | true =>
          exfalso
          have := cfEq_isWs hac
          rw [hkhw, hdw] at this
          cases this
      unfold keyAttempt
      rw [hcif]
      rfl
    · have hkeq : k = w1.length := by omega
      rw [hkeq]
      by_cases hci2 : startsCI key
          ((w1 ++ (core ++ (w2 ++ (clsOf f ++ y)))).drop w1.length) = true
      · rcases Nat.lt_trichotomy key.length core.length with hlt | heq | hgt
        · -- key is a strict case-folded prefix of the core: the closing
          -- literal cannot occur before the core's remaining plain text
          have hT : (w1 ++ (core ++ (w2 ++ (clsOf f ++ y)))).drop
              (w1.length + key.length) = core.drop key.length ++ (w2 ++ (clsOf f ++ y)) := by
            rw [← List.drop_drop, hdropX, List.drop_append_eq_append_drop]
            have : key.length - core.length = 0 := by omega
            rw [this, List.drop_zero]
          have hsuf_len : 0 < (core.drop key.length).length := by
            rw [List.length_drop]
            omega
          obtain ⟨lc, hlc⟩ : ∃ lc, core.getLast? = some lc := by
            rw [← Option.isSome_iff_exists, List.getLast?_isSome]
            exact hcne
          have hlcw : isWsChar lc = false := hcl lc hlc
          have hlc_suf : (core.drop key.length).getLast? = some lc := by
            rw [getLast?_drop_of_lt core key.length hlt, hlc]
          have hlc_mem : lc ∈ core.drop key.length :=
            List.mem_of_getLast?_eq_some hlc_suf
          have hws_lt : wsRun (core.drop key.length ++ (w2 ++ (clsOf f ++ y))) <
              (core.drop key.length).length :=
            wsRun_lt_of_exists _ _ ⟨lc, hlc_mem, hlcw⟩
          have htcn : tryClose (clsOf f)
              (core.drop key.length ++ (w2 ++ (clsOf f ++ y)))
              (wsRun (core.drop key.length ++ (w2 ++ (clsOf f ++ y)))) = none := by
            apply tryClose_none
            intro j hj
            obtain ⟨d, r, hdr, hd⟩ := drop_head_mem
              (show j < (core.drop key.length).length by omega) (w2 ++ (clsOf f ++ y))
            rw [hdr, hcls]
            apply startsLit_cons_ne
            intro hchd
            have hdp : plainChar d = true :=
              plainStr_mem (plainStr_drop hcp key.length) hd
            rw [← hchd, hchp] at hdp
            cases hdp
          unfold keyAttempt
          rw [hci2, if_pos rfl, hT, htcn]
        · exfalso
          rw [hdropX] at hci2
          exact hcf (startsCI_append_eq_cf key core _ heq hci2)
        · exfalso
          rw [hdropX] at hci2
          have hk2 := startsCI_drop core key _ (by omega) hci2
          have hk2ne : key.drop core.length ≠ [] := by
            intro he
            have := congrArg List.length he
            rw [List.length_drop] at this
            simp at this
            omega
          have hk2last : ∀ c, (key.drop core.length).getLast? = some c →
              isWsChar c = false := by
            intro c hc
            rw [getLast?_drop_of_lt key core.length hgt] at hc
            exact hkl c hc
          have := startsCI_ws_cls_false f w2 (key.drop core.length) y hw2 hk2ne
            (plainStr_drop hkp core.length) hk2last
          rw [this] at hk2
          cases hk2
      · unfold keyAttempt
        rw [Bool.not_eq_true] at hci2
        rw [hci2]
        rfl
  unfold formMatch matchAt
  rw [hre, startsLit_append_self, if_pos rfl, List.drop_left, hwsX, tryKey_none _ hall]

theorem formMatch_tok (f fT : PForm) (key w1 core w2 y : List Char)
    (hw1 : wsStr w1 = true) (hw2 : wsStr w2 = true)
    (hcore : keyLike core = true) (hkey : keyLike key = true) :
    formMatch f key (tokStr fT w1 core w2 ++ y) =
      if f = fT ∧ cfList key = cfList core then some (tokStr fT w1 core w2).length
      else none := by
  by_cases hff : f = fT
  · subst hff
    by_cases hcf : cfList key = cfList core
    · rw [if_pos ⟨rfl, hcf⟩]
      exact formMatch_tok_eq_cf f key w1 core w2 y hw1 hw2 hcore hcf
    · rw [if_neg (fun h => hcf h.2)]
      exact formMatch_tok_ne_cf f key w1 core w2 y hw1 hw2 hcore hkey hcf
  · rw [if_neg (fun h => hff h.1)]
    exact formMatch_tok_ne f fT hff key w1 core w2 y

/-! #### Segment-level computation of the substitution -/

/-- A segment of a well-formed template: literal text or one placeholder
token. -/
inductive Seg where
  | lit (s : List Char)
  | tok (f : PForm) (w1 core w2 : List Char)
deriving Repr

/-- Rendered text of one segment. -/
def renderSeg : Seg → List Char
  | .lit s => s
  | .tok f w1 core w2 => tokStr f w1 core w2

/-- Rendered text of a template. -/
def render : List Seg → List Char
  | [] => []
  | sg :: rest => renderSeg sg ++ render rest

/-- Well-formedness of one segment: literals are delimiter-free; tokens have
whitespace padding and a `keyLike` core. -/
def wfSeg : Seg → Bool
  | .lit s => plainStr s
  | .tok _ w1 core w2 => wsStr w1 && wsStr w2 && keyLike core

/-- Well-formedness of a template. -/
def wfTmpl (t : List Seg) : Bool := t.all wfSeg

/-- Effect of one `re.sub` pass (pattern form `f`, key `key`, value `v`) on
one segment. -/
def segMapF (f : PForm) (key v : List Char) : Seg → Seg
  | .lit s => .lit s
  | .tok fT w1 core w2 =>
    if f = fT ∧ cfList key = cfList core then .lit v else .tok fT w1 core w2

theorem scanSub_match {f : PForm} {key : List Char} (v : List Char) {s : List Char}
    {n : Nat} (h : formMatch f key s = some n) :
    scanSub f key v s = v ++ scanSub f key v (s.drop n) := by
  cases s with
  | nil => rw [formMatch_nil] at h; cases h
  | cons c t => exact scanSub_cons_some v h

theorem noOpen_of_mem_tok_inner (fT : PForm) {w1 core w2 : List Char}
    (hw1 : wsStr w1 = true) (hw2 : wsStr w2 = true) (hcp : plainStr core = true) :
    ∀ c ∈ w1 ++ (core ++ (w2 ++ clsOf fT)), noOpenChar c = true := by
  intro c hc
  rcases List.mem_append.mp hc with h1 | hc2
  · exact isWsChar_not_open (List.all_eq_true.mp hw1 c h1)
  rcases List.mem_append.mp hc2 with h2 | hc3
  · exact plainChar_not_open (plainStr_mem hcp h2)
  rcases List.mem_append.mp hc3 with h3 | h4
  · exact isWsChar_not_open (List.all_eq_true.mp hw2 c h3)
  · cases fT with
    | comment =>
      simp only [clsOf, List.mem_cons, List.not_mem_nil, or_false] at h4
      rcases h4 with h | h | h <;> subst h <;> decide
    | brace =>
      simp only [clsOf, List.mem_cons, List.not_mem_nil, or_false] at h4
      subst h4
      decide
    | bracket =>
      simp only [clsOf, List.mem_cons, List.not_mem_nil, or_false] at h4
      subst h4
      decide

theorem scanSub_tok_skip (f : PForm) (key v : List Char) (fT : PForm)
    (w1 core w2 y : List Char)
    (hw1 : wsStr w1 = true) (hw2 : wsStr w2 = true) (hcp : plainStr core = true)
    (hno : formMatch f key (tokStr fT w1 core w2 ++ y) = none) :
    scanSub f key v (tokStr fT w1 core w2 ++ y) =
      tokStr fT w1 core w2 ++ scanSub f key v y := by
  have hinner := noOpen_of_mem_tok_inner fT hw1 hw2 hcp
  cases fT with
  | comment =>
    have he : tokStr PForm.comment w1 core w2 ++ y =
        '<' :: ((['!', '-', '-'] ++ (w1 ++ (core ++ (w2 ++ clsOf PForm.comment)))) ++ y) :=
      rfl
    rw [he] at hno ⊢
    rw [scanSub_cons_none v hno]
    rw [scanSub_append_noOpen f key v _ y ?inner]
    case inner =>
      intro c hc
      rcases List.mem_append.mp hc with h1 | h2
      · simp only [List.mem_cons, List.not_mem_nil, or_false] at h1
        rcases h1 with h | h | h <;> subst h <;> decide
      · exact hinner c h2
    rfl
  | brace =>
    have he : tokStr PForm.brace w1 core w2 ++ y =
        '\x7b' :: ((w1 ++ (core ++ (w2 ++ clsOf PForm.brace))) ++ y) := rfl
    rw [he] at hno ⊢
    rw [scanSub_cons_none v hno]
    rw [scanSub_append_noOpen f key v _ y hinner]
    rfl
  | bracket =>
    have he : tokStr PForm.bracket w1 core w2 ++ y =
        '[' :: ((w1 ++ (core ++ (w2 ++ clsOf PForm.bracket))) ++ y) := rfl
    rw [he] at hno ⊢
    rw [scanSub_cons_none v hno]
    rw [scanSub_append_noOpen f key v _ y hinner]
    rfl

theorem scanSub_render (f : PForm) (key v : List Char)
    (hkey : keyLike key = true) :
    ∀ t : List Seg, wfTmpl t = true →
      scanSub f key v (render t) = render (t.map (segMapF f key v)) := by
  intro t
  induction t with
  | nil => intro _; rfl
  | cons sg rest ih =>
    intro hwf
    simp only [wfTmpl, List.all_cons, Bool.and_eq_true] at hwf
    obtain ⟨hwfsg, hwfr⟩ := hwf
    cases sg with
    | lit s =>
      show scanSub f key v (s ++ render rest) = _
      rw [scanSub_append_noOpen f key v s _ (fun c hc =>
        plainChar_not_open (plainStr_mem hwfsg hc))]
      rw [ih hwfr]
      rfl
    | tok fT w1 core w2 =>
      simp only [wfSeg, Bool.and_eq_true] at hwfsg
      obtain ⟨⟨hw1, hw2⟩, hcore⟩ := hwfsg
      by_cases hcond : f = fT ∧ cfList key = cfList core
      · obtain ⟨hf, hcf⟩ := hcond
        subst hf
        have hm := formMatch_tok_eq_cf f key w1 core w2 (render rest) hw1 hw2 hcore hcf
        show scanSub f key v (tokStr f w1 core w2 ++ render rest) = _
        rw [scanSub_match v hm, List.drop_left, ih hwfr]
        show _ = render (segMapF f key v (Seg.tok f w1 core w2) :: rest.map (segMapF f key v))
        simp only [segMapF, eq_self_iff_true, true_and]
        rw [if_pos hcf]
        rfl
      · have hnone : formMatch f key (tokStr fT w1 core w2 ++ render rest) = none := by
          rw [formMatch_tok f fT key w1 core w2 (render rest) hw1 hw2 hcore hkey,
            if_neg hcond]
        show scanSub f key v (tokStr fT w1 core w2 ++ render rest) = _
        rw [scanSub_tok_skip f key v fT w1 core w2 (render rest) hw1 hw2
          (keyLike_parts hcore).1 hnone, ih hwfr]
        show _ = render (segMapF f key v (Seg.tok fT w1 core w2) :: rest.map (segMapF f key v))
        simp only [segMapF]
        rw [if_neg hcond]
        rfl

/-- Effect of one whole loop iteration of `replace_placeholders` (all three
pattern forms for one key) on one segment. -/
def segMapTotal (key v : List Char) : Seg → Seg
  | .lit s => .lit s
  | .tok fT w1 core w2 =>
    if cfList key = cfList core then .lit v else .tok fT w1 core w2

/-- Effect of the whole `replace_placeholders` loop on one segment: the first
key whose case-folded text equals the token core wins. -/
def resolveSeg (m : List (List Char × List Char)) : Seg → Seg
  | .lit s => .lit s
  | .tok fT w1 core w2 =>
    match m.find? (fun kv => cfList kv.1 == cfList core) with
    | some kv => .lit kv.2
    | none => .tok fT w1 core w2

theorem segMapF_comp (key v : List Char) (sg : Seg) :
    segMapF .bracket key v (segMapF .brace key v (segMapF .comment key v sg)) =
      segMapTotal key v sg := by
  cases sg with
  | lit s => rfl
  | tok fT w1 core w2 =>
    by_cases hcf : cfList key = cfList core
    · cases fT <;> simp [segMapF, segMapTotal, hcf]
    · cases fT <;> simp [segMapF, segMapTotal, hcf]

theorem wfSeg_segMapF (f : PForm) (key v : List Char) (hv : plainStr v = true) :
    ∀ sg, wfSeg sg = true → wfSeg (segMapF f key v sg) = true := by
  intro sg h
  cases sg with
  | lit s => exact h
  | tok fT w1 core w2 =>
    simp only [segMapF]
    by_cases hcond : f = fT ∧ cfList key = cfList core
    · rw [if_pos hcond]; exact hv
    · rw [if_neg hcond]; exact h

theorem wfTmpl_map {g : Seg → Seg} (hg : ∀ sg, wfSeg sg = true → wfSeg (g sg) = true)
    {t : List Seg} (h : wfTmpl t = true) : wfTmpl (t.map g) = true := by
  unfold wfTmpl at h ⊢
  rw [List.all_map]
  apply List.all_eq_true.mpr
  intro sg hsg
  exact hg sg (List.all_eq_true.mp h sg hsg)

theorem substKeyOne_render (key v : List Char) (hkey : keyLike key = true)
    (hv : plainStr v = true) (t : List Seg) (hwf : wfTmpl t = true) :
    substKeyOne key v (render t) = render (t.map (segMapTotal key v)) := by
  unfold substKeyOne
  rw [scanSub_render .comment key v hkey t hwf]
  rw [scanSub_render .brace key v hkey _ (wfTmpl_map (wfSeg_segMapF _ key v hv) hwf)]
  rw [scanSub_render .bracket key v hkey _
    (wfTmpl_map (wfSeg_segMapF _ key v hv) (wfTmpl_map (wfSeg_segMapF _ key v hv) hwf))]
  rw [List.map_map, List.map_map]
  apply congrArg render
  apply List.map_congr_left
  intro sg _
  exact segMapF_comp key v sg

/-- Pointwise well-formedness of a key/value list. -/
def mapWfL (m : List (List Char × List Char)) : Bool :=
  m.all (fun kv => keyLike kv.1 && plainStr kv.2)

theorem resolveSeg_cons (kv : List Char × List Char) (m : List (List Char × List Char))
    (sg : Seg) :
    resolveSeg m (segMapTotal kv.1 kv.2 sg) = resolveSeg (kv :: m) sg := by
  cases sg with
  | lit s => rfl
  | tok fT w1 core w2 =>
    by_cases hcf : cfList kv.1 = cfList core
    · simp only [segMapTotal]
      rw [if_pos hcf]
      simp only [resolveSeg]
      rw [List.find?_cons_of_pos _ (by simpa using hcf)]
    · simp only [segMapTotal]
      rw [if_neg hcf]
      simp only [resolveSeg]
      rw [List.find?_cons_of_neg _ (by simpa using hcf)]

theorem wfSeg_segMapTotal (key v : List Char) (hv : plainStr v = true) :
    ∀ sg, wfSeg sg = true → wfSeg (segMapTotal key v sg) = true := by
  intro sg h
  cases sg with
  | lit s => exact h
  | tok fT w1 core w2 =>
    simp only [segMapTotal]
    by_cases hcf : cfList key = cfList core
    · rw [if_pos hcf]; exact hv
    · rw [if_neg hcf]; exact h

theorem substAll_render :
    ∀ (m : List (List Char × List Char)) (t : List Seg),
      mapWfL m = true → wfTmpl t = true →
      substAll m (render t) = render (t.map (resolveSeg m)) := by
  intro m
  induction m with
  | nil =>
    intro t _ _
    show render t = _
    apply congrArg render
    symm
    rw [show t.map (resolveSeg []) = t.map id from
      List.map_congr_left (fun sg _ => by cases sg <;> rfl)]
    exact List.map_id t
  | cons kv m ih =>
    intro t hm hwf
    simp only [mapWfL, List.all_cons, Bool.and_eq_true] at hm
    obtain ⟨⟨hkey, hv⟩, hmr⟩ := hm
    show substAll m (substKeyOne kv.1 kv.2 (render t)) = _
    rw [substKeyOne_render kv.1 kv.2 hkey hv t hwf]
    rw [ih _ hmr (wfTmpl_map (wfSeg_segMapTotal kv.1 kv.2 hv) hwf)]
    rw [List.map_map]
    apply congrArg render
    apply List.map_congr_left
    intro sg _
    exact resolveSeg_cons kv m sg

/-- Pointwise well-formedness of a replacement map on the `String` level:
keys are delimiter-free, trimmed and non-empty; values are delimiter-free
(hence also backslash-free). -/
def mapWf (m : List (String × String)) : Bool :=
  m.all (fun kv => keyLike kv.1.data && plainStr kv.2.data)

theorem plainStr_no_backslash {v : List Char} (h : plainStr v = true) : '\\' ∉ v := by
  intro hv
  have := plainStr_mem h hv
  exact absurd this (by decide)

theorem mapWf_toL {m : List (String × String)} (h : mapWf m = true) :
    mapWfL (m.map fun kv => (kv.1.data, kv.2.data)) = true := by
  unfold mapWfL
  apply List.all_eq_true.mpr
  intro kv hkv
  obtain ⟨kv0, hkv0, rfl⟩ := List.mem_map.mp hkv
  exact List.all_eq_true.mp h kv0 hkv0

theorem replace_placeholders_render {t : List Seg} {m : List (String × String)}
    (hwf : wfTmpl t = true) (hm : mapWf m = true) :
    replace_placeholders (String.mk (render t)) m =
      Except.ok (String.mk (render (t.map
        (resolveSeg (m.map fun kv => (kv.1.data, kv.2.data)))))) := by
  have hnb : ∀ kv ∈ m, '\\' ∉ kv.2.data := by
    intro kv hkv
    have := List.all_eq_true.mp hm kv hkv
    rw [Bool.and_eq_true] at this
    exact plainStr_no_backslash this.2
  unfold replace_placeholders
  rw [foldlM_subst_ok m _ hnb]
  rw [data_mk]
  rw [substAll_render _ t (mapWf_toL hm) hwf]
  rfl

theorem resolveSeg_idem (m : List (List Char × List Char)) (sg : Seg) :
    resolveSeg m (resolveSeg m sg) = resolveSeg m sg := by
  cases sg with
  | lit s => rfl
  | tok fT w1 core w2 =>
    simp only [resolveSeg]
    cases hf : m.find? (fun kv => cfList kv.1 == cfList core) with
    | some kv => rfl
    | none => simp only [resolveSeg, hf]

theorem wfSeg_resolveSeg (m : List (List Char × List Char)) (hm : mapWfL m = true) :
    ∀ sg, wfSeg sg = true → wfSeg (resolveSeg m sg) = true := by
  intro sg h
  cases sg with
  | lit s => exact h
  | tok fT w1 core w2 =>
    simp only [resolveSeg]
    cases hf : m.find? (fun kv => cfList kv.1 == cfList core) with
    | some kv =>
      have hkv := List.mem_of_find?_eq_some hf
      have := List.all_eq_true.mp hm kv hkv
      rw [Bool.and_eq_true] at this
      exact this.2
    | none => exact h

/-- C7 (amended): on the class of well-formed templates (alternating
delimiter-free literals and complete placeholder tokens) and well-formed
maps (delimiter-free trimmed keys, delimiter-free values),
`replace_placeholders` is idempotent: applying it to its own output with the
same map returns that output unchanged.  Outside this class the spec's
syntactic condition on values is not sufficient (see the counterexample):
an inserted value can weld with surrounding template text into a new
placeholder. -/
theorem C7_idempotence_amended :
    ∀ (t : List Seg) (m : List (String × String)) (r : String),
      wfTmpl t = true → mapWf m = true →
      replace_placeholders (String.mk (render t)) m = Except.ok r →
      replace_placeholders r m = Except.ok r := by
  intro t m r hwf hm hr
  rw [replace_placeholders_render hwf hm] at hr
  have hrv : r = String.mk (render (t.map
      (resolveSeg (m.map fun kv => (kv.1.data, kv.2.data))))) :=
    (Except.ok.inj hr).symm
  have hwf2 : wfTmpl (t.map (resolveSeg (m.map fun kv => (kv.1.data, kv.2.data)))) = true :=
    wfTmpl_map (wfSeg_resolveSeg _ (mapWf_toL hm)) hwf
  rw [hrv, replace_placeholders_render hwf2 hm]
  rw [show (t.map (resolveSeg (m.map fun kv => (kv.1.data, kv.2.data)))).map
        (resolveSeg (m.map fun kv => (kv.1.data, kv.2.data))) =
      t.map (resolveSeg (m.map fun kv => (kv.1.data, kv.2.data))) from by
    rw [List.map_map]
    exact List.map_congr_left (fun sg _ => resolveSeg_idem _ sg)]

theorem find?_perm_of_unique {α : Type} (p : α → Bool) {l l2 : List α}
    (hp : List.Perm l l2)
    (huniq : ∀ a ∈ l, ∀ b ∈ l, p a = true → p b = true → a = b) :
    l.find? p = l2.find? p := by
  cases hf : l.find? p with
  | some a =>
    have ha := List.find?_some hf
    have ham := List.mem_of_find?_eq_some hf
    cases hf2 : l2.find? p with
    | some b =>
      have hb := List.find?_some hf2
      have hbm := List.mem_of_find?_eq_some hf2
      rw [huniq a ham b (hp.mem_iff.mpr hbm) ha hb]
    | none =>
      exfalso
      have := List.find?_eq_none.mp hf2 a (hp.mem_iff.mp ham)
      rw [ha] at this
      exact this rfl
  | none =>
    cases hf2 : l2.find? p with
    | some b =>
      exfalso
      have hbm := List.mem_of_find?_eq_some hf2
      have := List.find?_eq_none.mp hf b (hp.mem_iff.mpr hbm)
      rw [List.find?_some hf2] at this
      exact this rfl
    | none => rfl

/-- C6 (amended): on well-formed templates and well-formed maps whose keys
are pairwise distinct up to ASCII case folding (Python dict keys are unique,
and `re.IGNORECASE` makes keys differing only in case collide), the output
of `replace_placeholders` does not depend on the insertion order of the
replacement pairs.  With arbitrary values the claim fails (see the
counterexample): a value containing placeholder syntax for another key makes
the orders diverge. -/
theorem C6_commutativity_amended :
    ∀ (t : List Seg) (m m2 : List (String × String)),
      wfTmpl t = true → mapWf m = true →
      (m.map fun kv => cfList kv.1.data).Nodup →
      List.Perm m m2 →
      replace_placeholders (String.mk (render t)) m =
        replace_placeholders (String.mk (render t)) m2 := by
  intro t m m2 hwf hm hnd hperm
  have hm2 : mapWf m2 = true := by
    apply List.all_eq_true.mpr
    intro kv hkv
    exact List.all_eq_true.mp hm kv (hperm.mem_iff.mpr hkv)
  rw [replace_placeholders_render hwf hm, replace_placeholders_render hwf hm2]
  have hpermL : List.Perm (m.map fun kv => (kv.1.data, kv.2.data))
      (m2.map fun kv => (kv.1.data, kv.2.data)) := hperm.map _
  have hndL : ((m.map fun kv => (kv.1.data, kv.2.data)).map
      (fun kv => cfList kv.1)).Nodup := by
    rw [List.map_map]
    exact hnd
  have hinj := List.inj_on_of_nodup_map hndL
  apply congrArg
  apply congrArg
  apply congrArg
  apply List.map_congr_left
  intro sg _
  cases sg with
  | lit s => rfl
  | tok fT w1 core w2 =>
    simp only [resolveSeg]
    rw [find?_perm_of_unique _ hpermL]
    intro a ha b hb hpa hpb
    have hpa2 : cfList a.1 = cfList core := by simpa using hpa
    have hpb2 : cfList b.1 = cfList core := by simpa using hpb
    exact hinj ha hb (by rw [hpa2, hpb2])

/-- A small well-formed template used to witness the amended claims: a
brace token with trailing padding, a bracket token with leading padding and
a comment token, interleaved with plain literals. -/
def demoTmpl : List Seg :=
  [Seg.lit "Dear ".data,
   Seg.tok .brace [] "Company Name".data [' '],
   Seg.lit ", re ".data,
   Seg.tok .bracket [' '] "JOB TITLE".data [],
   Seg.tok .comment [] "Date".data []]

/-- A well-formed replacement map with case-folded-distinct keys. -/
def demoMap : List (String × String) :=
  [("JOB TITLE", "Engineer"), ("company name", "Acme Co")]

/-- C6 witness: the amended theorem applied to the concrete template
`Dear {Company Name }, re [ JOB TITLE]<!--Date-->` and the two insertion
orders of `demoMap`; both orders produce the same concrete output, with the
unmatched comment token left untouched. -/
theorem C6_commutativity_amended_witness :
    replace_placeholders (String.mk (render demoTmpl)) demoMap =
      replace_placeholders (String.mk (render demoTmpl)) demoMap.reverse
    ∧ replace_placeholders (String.mk (render demoTmpl)) demoMap =
      Except.ok "Dear Acme Co, re Engineer<!--Date-->" := by
  constructor
  · exact C6_commutativity_amended demoTmpl demoMap demoMap.reverse
      (by decide) (by decide) (by decide) (by decide)
  · rfl

/-- C7 witness: the amended theorem applied to the same concrete template
and map; the first application's output is a fixed point of the second. -/
theorem C7_idempotence_amended_witness :
    replace_placeholders (String.mk (render demoTmpl)) demoMap =
      Except.ok "Dear Acme Co, re Engineer<!--Date-->"
    ∧ replace_placeholders "Dear Acme Co, re Engineer<!--Date-->" demoMap =
      Except.ok "Dear Acme Co, re Engineer<!--Date-->" := by
  constructor
  · rfl
  · exact C7_idempotence_amended demoTmpl demoMap
      "Dear Acme Co, re Engineer<!--Date-->" (by decide) (by decide) (by rfl)

end SimpleApply
